import Mathlib

/-!
# awsbreeze: feed synchronisation, seen-state and filtering

A shallow embedding of `main.go` of awsbreeze (a terminal reader for the AWS
"What is New" feed) and theorems about it. The functions of the Go standard
library that the program calls (`time`, `strconv`, `strings`, `unicode`) are
embedded from their documented behaviour.

Conventions of the embedding.

* A `time.Time` is an instant, an integer number of nanoseconds since the Unix
  epoch; `time.Now()` is a parameter `now` of every function that reads the
  clock: the clock is taken to stand still while one message is handled (the
  loop of `applyFilters` reads it once per item).
* A Go `string` that reaches this code is valid UTF-8 (the descriptions come out
  of `encoding/xml`, which rejects invalid UTF-8; the filter text is typed
  runes), so it is a Lean `String`, a sequence of Unicode scalar values.
* A `map[string]bool` is an association list with pairwise distinct keys
  (`AList`); the `nil` map is `none`. Statements about a map are made through
  `lookup`, never through the order of the entries.
* `float64` arithmetic (used by `Duration.Hours` and the division by 24) is
  modelled exactly: each operation is the real result rounded to the nearest
  value with a 53 bit significand, ties to even. Every value that occurs is in
  the normal range of binary64, so exponent limits play no role.
* The widgets of the Bubble Tea libraries are outside the program; of the list
  widget the model keeps the items, the title, the cursor and the size, of the
  text input the value and the focus flag. What the widgets do with a message
  is a parameter (`Collab`).
-/

namespace AwsBreeze

/-! ## Time -/

/-- An instant (`time.Time`), in nanoseconds since the Unix epoch. -/
abbrev Time := Int

/-- The zero value of `time.Time`: 1 January of year 1, 00:00:00 UTC. -/
def zeroTime : Time := -62135596800 * 1000000000

/-- The method `t.After(u)`: the instant `t` is strictly later than `u`. -/
def Time.After (t u : Time) : Bool := decide (u < t)

/-- The smallest `time.Duration` (an `int64` count of nanoseconds). -/
def minDuration : Int := -(2 ^ 63)

/-- The largest `time.Duration`. -/
def maxDuration : Int := 2 ^ 63 - 1

/-- The method `t.Sub(u)`: the difference `t - u` as a `Duration`; a difference that
does not fit in an `int64` is replaced by the nearest of `minDuration` and
`maxDuration`. -/
def Time.Sub (t u : Time) : Int :=
  if t - u < minDuration then minDuration
  else if maxDuration < t - u then maxDuration
  else t - u

/-- The function `time.Since(t)`, which is `time.Now().Sub(t)`. -/
def Since (now t : Time) : Int := Time.Sub now t

/-- The constant `time.Hour`, in nanoseconds. -/
def Hour : Int := 3600000000000

/-! ## binary64 arithmetic -/

/-- A finite `float64`: the number `(-1)^neg * mant * 2^exp`. -/
structure F64 where
  neg : Bool
  mant : Nat
  exp : Int
  deriving DecidableEq, Repr

/-- The loop behind `log2`, with a bound on the number of halvings. -/
def log2Loop : Nat → Nat → Nat
  | 0, _ => 0
  | fuel + 1, n => if 2 ≤ n then log2Loop fuel (n / 2) + 1 else 0

/-- The position of the highest set bit of `n` (and `0` for `n = 0`). -/
def log2 (n : Nat) : Nat := log2Loop n n

/-- The exponent `e` of the rounded quotient `a / b`: the one for which
`2^52 ≤ a / (b * 2^e) < 2^53`. -/
def roundExp (a b : Nat) : Int :=
  let e0 : Int := (log2 a : Int) - (log2 b : Int) - 52
  if (a * 2 ^ (-e0).toNat) / (b * 2 ^ e0.toNat) < 2 ^ 52 then e0 - 1 else e0

/-- The quotient `a / b` of two naturals rounded to a 53 bit significand, to nearest
and ties to even: the result `(m, e)` stands for `m * 2^e`. -/
def roundRatio (a b : Nat) : Nat × Int :=
  if a = 0 ∨ b = 0 then (0, 0)
  else
    let e : Int := roundExp a b
    let num : Nat := a * 2 ^ (-e).toNat
    let den : Nat := b * 2 ^ e.toNat
    if den < 2 * (num % den) ∨ (2 * (num % den) = den ∧ (num / den) % 2 = 1) then
      (num / den + 1, e)
    else (num / den, e)

/-- The numerator of the number `x` stands for, sign apart: `num / den = mant * 2^exp`. -/
def F64.num (x : F64) : Nat := x.mant * 2 ^ x.exp.toNat

/-- The denominator of the number `x` stands for, a power of two. -/
def F64.den (x : F64) : Nat := 2 ^ (-x.exp).toNat

/-- The conversion `float64(n)` of an integer. -/
def F64.ofInt (n : Int) : F64 :=
  let p := roundRatio n.natAbs 1
  { neg := decide (n < 0), mant := p.1, exp := p.2 }

/-- The quotient `x / y` in `float64`: the exact quotient, rounded (the divisors of
this program are the non-zero constants `60*60*1e9` and `24`). -/
def F64.div (x y : F64) : F64 :=
  let p := roundRatio (x.num * y.den) (x.den * y.num)
  { neg := xor x.neg y.neg, mant := p.1, exp := p.2 }

/-- The numerator of `x` over the denominator `x.den * d`, with the sign of `x`. -/
def F64.signed (x : F64) (d : Nat) : Int :=
  if x.neg then -((x.num * d : Nat) : Int) else ((x.num * d : Nat) : Int)

/-- The sum `x + y` in `float64`: the exact sum, rounded. -/
def F64.add (x y : F64) : F64 :=
  let s := x.signed y.den + y.signed x.den
  let p := roundRatio s.natAbs (x.den * y.den)
  { neg := decide (s < 0), mant := p.1, exp := p.2 }

/-- The conversion `int(x)` of a `float64`: the fraction is discarded (truncation
toward zero). -/
def F64.toInt (x : F64) : Int :=
  if x.neg then -((x.num / x.den : Nat) : Int) else ((x.num / x.den : Nat) : Int)

/-- The method `d.Hours()` of a `Duration`:
`float64(d / Hour) + float64(d % Hour) / (60*60*1e9)`, with the truncating integer
division and remainder of Go. -/
def Hours (d : Int) : F64 :=
  let hour := Int.tdiv d Hour
  let nsec := Int.tmod d Hour
  F64.add (F64.ofInt hour) (F64.div (F64.ofInt nsec) (F64.ofInt 3600000000000))

/-- The expression `int(time.Since(pubDate).Hours() / 24)` of `applyFilters`. -/
def daysDiff (now pubDate : Time) : Int :=
  F64.toInt (F64.div (Hours (Since now pubDate)) (F64.ofInt 24))

/-! ## Data model -/

/-- The struct `NewsItem`. -/
structure NewsItem where
  Title : String
  Link : String
  Description : String
  PubDate : Time
  GUID : String
  IsNew : Bool
  deriving DecidableEq, Repr

/-- A non-nil `map[string]bool`. -/
abbrev SeenMap := AList (fun _ : String => Bool)

/-- Two maps are equal when their entries are. -/
instance : DecidableEq SeenMap := fun a b =>
  decidable_of_iff (a.entries = b.entries) ⟨AList.ext, fun h => congrArg AList.entries h⟩

/-- The struct `Config`; `LastSeen = none` is the nil map. -/
structure Config where
  LastSeen : Option SeenMap
  LastRun : Time
  deriving DecidableEq

/-- The part of `list.Model` the program reads and writes. -/
structure ListModel where
  items : List NewsItem
  Title : String
  index : Nat
  width : Int
  height : Int
  deriving DecidableEq

/-- The part of `textinput.Model` the program reads and writes. -/
structure TextInput where
  value : String
  focus : Bool
  deriving DecidableEq

/-- The struct `model`; `err = none` is the nil error. -/
structure model where
  list : ListModel
  items : List NewsItem
  config : Config
  loading : Bool
  err : Option String
  filterInput : TextInput
  filtering : Bool
  filterDays : Int
  showHelp : Bool
  deriving DecidableEq

/-- The commands `Update` returns: `nil`, `fetchNews`, `tea.Quit`, `openURL(url)`,
or whatever a widget returned for the message (`widget id`, which may be `nil` but
is never one of the commands of this program). -/
inductive Cmd where
  | none
  | fetchNews
  | Quit
  | openURL (url : String)
  | widget (id : Nat)
  deriving DecidableEq, Repr

/-- The messages `Update` receives; `other` is any message of a type the type switch
does not name. -/
inductive Msg where
  | WindowSizeMsg (Width Height : Int)
  | fetchedMsg (items : List NewsItem)
  | errMsg (e : String)
  | KeyMsg (key : String)
  | other (tag : Nat)
  deriving DecidableEq

/-- The behaviour of the two widgets on a message (`list.Model.Update` and
`textinput.Model.Update`), which belongs to the Bubble Tea libraries. -/
structure Collab where
  listUpdate : ListModel → Msg → ListModel × Nat
  inputUpdate : TextInput → Msg → TextInput × Nat

/-! ## Reading and writing a `map[string]bool` -/

/-- The two-valued index expression `v, ok := m[k]`; on the nil map `ok` is false. -/
def mapGet (m : Option SeenMap) (k : String) : Option Bool :=
  match m with
  | none => none
  | some s => s.lookup k

/-- The one-valued index expression `m[k]`: the zero value `false` for an absent
key. -/
def mapIndex (m : SeenMap) (k : String) : Bool := (m.lookup k).getD false

/-! ## The filter engine -/

/-- The method `applyFilters`: the loop collects the items that pass the day filter, in
order, hands them to the list widget and sets its title. -/
def applyFilters (now : Time) (m : model) : model :=
  let filteredItems : List NewsItem := m.items.foldl
    (fun acc item =>
      if 0 < m.filterDays ∧ m.filterDays < daysDiff now item.PubDate then acc
      else acc ++ [item])
    []
  let title : String :=
    if 0 < m.filterDays then "AWS What\x27s New" ++ (" (Last " ++ toString m.filterDays ++ " days)")
    else "AWS What\x27s New"
  { m with list := { m.list with items := filteredItems, Title := title } }

/-! ## Seen-state -/

/-- The loop of `markAsSeen`: clears `IsNew` on the first item with the given GUID and
stops there (`break`). -/
def clearFirst (guid : String) : List NewsItem → List NewsItem
  | [] => []
  | i :: rest =>
    if i.GUID = guid then { i with IsNew := false } :: rest
    else i :: clearFirst guid rest

/-- The method `markAsSeen`. -/
def markAsSeen (now : Time) (m : model) (guid : String) : model :=
  let seen : SeenMap := (m.config.LastSeen.getD ∅).insert guid true
  applyFilters now
    { m with config := { m.config with LastSeen := some seen }, items := clearFirst guid m.items }

/-- The method `markAllAsSeen`. -/
def markAllAsSeen (m : model) : model :=
  let seen : SeenMap := m.items.foldl (fun s i => s.insert i.GUID true) (m.config.LastSeen.getD ∅)
  { m with config := { m.config with LastSeen := some seen },
           items := m.items.map (fun i => { i with IsNew := false }) }

/-- The method `cleanupConfig`: nothing on the nil map; otherwise a new map is built
from the entries of `LastSeen` whose key is a GUID of a current item. -/
def cleanupConfig (m : model) : model :=
  match m.config.LastSeen with
  | none => m
  | some lastSeen =>
    let currentGUIDs : SeenMap := m.items.foldl (fun s item => s.insert item.GUID true) ∅
    let newLastSeen : SeenMap := lastSeen.entries.foldl
      (fun s p => if mapIndex currentGUIDs p.1 then s.insert p.1 p.2 else s) ∅
    { m with config := { m.config with LastSeen := some newLastSeen } }

/-- The method `saveConfig`, up to the file write: `LastRun` becomes the current time
and the map is pruned; the JSON written to the cache file encodes the resulting
`config`. -/
def saveConfig (now : Time) (m : model) : model :=
  cleanupConfig { m with config := { m.config with LastRun := now } }

/-! ## Parsing the day filter -/

/-- The two error kinds of `strconv`: `ErrSyntax` and `ErrRange`. -/
inductive NumError where
  | ErrSyntax
  | ErrRange
  deriving DecidableEq, Repr

/-- The size of `int` in bits on the platforms Go builds this program for. -/
def intSize : Nat := 64

/-- The loop of `strconv.ParseUint(s, 10, 64)` over the bytes of `s`, from the
accumulator `n`: a byte that is not a decimal digit is a syntax error, a value
that leaves `uint64` a range error (reported where the loop notices it). -/
def parseUintLoop : List Char → Nat → Except NumError Nat
  | [], n => .ok n
  | c :: cs, n =>
    if '0' ≤ c ∧ c ≤ '9' then
      if (2 ^ 64 - 1) / 10 + 1 ≤ n then .error .ErrRange
      else if 2 ^ 64 - 1 < n * 10 + (c.toNat - '0'.toNat) then .error .ErrRange
      else parseUintLoop cs (n * 10 + (c.toNat - '0'.toNat))
    else .error .ErrSyntax

/-- The function `strconv.ParseUint(s, 10, 64)`; on a range error the value is the
largest `uint64`. -/
def ParseUint (s : List Char) : Nat × Option NumError :=
  if s = [] then (0, some .ErrSyntax)
  else
    match parseUintLoop s 0 with
    | .ok n => (n, none)
    | .error .ErrRange => (2 ^ 64 - 1, some .ErrRange)
    | .error .ErrSyntax => (0, some .ErrSyntax)

/-- The function `strconv.Atoi(s)`, which is `ParseInt(s, 10, 0)` converted to `int`:
an optional sign, then `ParseUint` on the rest, then the range check against
`2^(intSize-1)`. The result is the pair of Go, value and error. -/
def Atoi (s : String) : Int × Option NumError :=
  match s.toList with
  | [] => (0, some .ErrSyntax)
  | c :: cs =>
    let neg : Bool := decide (c = '-')
    let rest : List Char := if c = '+' ∨ c = '-' then cs else c :: cs
    let cutoff : Nat := 2 ^ (intSize - 1)
    match ParseUint rest with
    | (_, some .ErrSyntax) => (0, some .ErrSyntax)
    | (un, _) =>
      if neg = false ∧ cutoff ≤ un then ((cutoff : Int) - 1, some .ErrRange)
      else if neg = true ∧ cutoff < un then (-(cutoff : Int), some .ErrRange)
      else (if neg then -(un : Int) else (un : Int), none)

/-- The function `parseDays`. -/
def parseDays (input : String) : Int :=
  if input = "" then 0
  else
    match Atoi input with
    | (days, err) => if err ≠ none ∨ days < 0 then 0 else days

/-! ## The markup stripper -/

/-- The function `unicode.IsSpace`. -/
def IsSpace (r : Char) : Bool :=
  let n := r.toNat
  (9 ≤ n && n ≤ 13) || n == 32 || n == 133 || n == 160 || n == 5760 ||
    (8192 ≤ n && n ≤ 8202) || n == 8232 || n == 8233 || n == 8239 || n == 8287 || n == 12288

/-- The function `strings.TrimSpace`: the string without its leading and trailing
white space. -/
def TrimSpace (s : String) : String :=
  String.mk ((s.toList.dropWhile IsSpace).reverse.dropWhile IsSpace).reverse

/-- One turn of the loop of `stripHTML` on the rune `r`, from the state
`(result, inTag)`. -/
def stripStep (st : String × Bool) (r : Char) : String × Bool :=
  if r = '<' then (st.1, true)
  else if r = '>' then (st.1, false)
  else if st.2 = false then (st.1 ++ String.singleton r, st.2)
  else st

/-- The function `stripHTML`. -/
def stripHTML (s : String) : String :=
  TrimSpace (s.toList.foldl stripStep ("", false)).1

/-! ## The session -/

/-- The four modes of the session. -/
inductive SessionMode where
  | Loading
  | Error
  | EnteringFilter
  | Browsing
  deriving DecidableEq, Repr

/-- The mode of a model as `View` reads it: the loading screen when `loading` is set,
else the error screen when `err` is not nil, else the list, with the filter
prompt under it when `filtering` is set. -/
def mode (m : model) : SessionMode :=
  if m.loading then .Loading
  else if m.err ≠ none then .Error
  else if m.filtering then .EnteringFilter
  else .Browsing

/-- The method `SelectedItem` of the list widget: the item under the cursor, `nil`
when there is none. -/
def SelectedItem (l : ListModel) : Option NewsItem := l.items.get? l.index

/-- The loop of the `fetchedMsg` case of `Update`: an item is new when its GUID is not
a key of `LastSeen` and it was published after `LastRun`. -/
def markNew (config : Config) (items : List NewsItem) : List NewsItem :=
  items.map (fun i =>
    { i with IsNew := (mapGet config.LastSeen i.GUID).isNone && Time.After i.PubDate config.LastRun })

/-- The method `Update`: the next model and the command for a message. The result is
`none` where the Go code panics, which is the type assertion on a `nil` selected
item. -/
def Update (w : Collab) (now : Time) (m : model) (msg : Msg) : Option (model × Cmd) :=
  let toList : Option (model × Cmd) :=
    let r := w.listUpdate m.list msg
    some ({ m with list := r.1 }, .widget r.2)
  match msg with
  | .WindowSizeMsg width height =>
    some ({ m with list := { m.list with width := width, height := height - 3 } }, .none)
  | .fetchedMsg items =>
    some (applyFilters now { m with loading := false, items := markNew m.config items }, .none)
  | .errMsg e =>
    some ({ m with loading := false, err := some e }, .none)
  | .KeyMsg key =>
    if m.filtering then
      if key = "enter" then
        some (applyFilters now
          { m with filterDays := parseDays m.filterInput.value, filtering := false }, .none)
      else if key = "esc" then
        some ({ m with filtering := false }, .none)
      else
        let r := w.inputUpdate m.filterInput msg
        some ({ m with filterInput := r.1 }, .widget r.2)
    else if key = "ctrl+c" ∨ key = "q" then
      some (saveConfig now m, .Quit)
    else if key = "enter" then
      if 0 < m.list.items.length then
        match SelectedItem m.list with
        | some selected => some (markAsSeen now m selected.GUID, .openURL selected.Link)
        | none => none
      else toList
    else if key = "r" then
      some ({ m with loading := true }, .fetchNews)
    else if key = "f" then
      some ({ m with filtering := true, filterInput := { m.filterInput with focus := true } }, .none)
    else if key = "c" then
      some (applyFilters now { m with filterDays := 0 }, .none)
    else if key = "n" then
      some (applyFilters now (markAllAsSeen m), .none)
    else if key = "h" then
      some ({ m with showHelp := !m.showHelp }, .none)
    else toList
  | .other _ => toList

/-! ## Definitions used to state the claims -/

/-- The test an item passes in the loop of `applyFilters`: the filter is off
(`filterDays` not positive) or the day count of the code is at most `filterDays`. -/
def passes (now : Time) (filterDays : Int) (item : NewsItem) : Bool :=
  !(decide (0 < filterDays) && decide (filterDays < daysDiff now item.PubDate))

/-- The age of an item in whole days as the specification words it: the exact
difference `now - pubDate`, in units of 24 hours, truncated. -/
def wholeDaysSpec (now pubDate : Time) : Int := Int.tdiv (now - pubDate) (24 * Hour)

/-- An item with the given GUID, publication time and `IsNew` flag, and empty texts. -/
def mkItem (guid : String) (pubDate : Time) (isNew : Bool) : NewsItem :=
  { Title := "", Link := "", Description := "", PubDate := pubDate, GUID := guid, IsNew := isNew }

/-- Widgets that ignore every message. -/
def idleWidgets : Collab :=
  { listUpdate := fun l _ => (l, 0), inputUpdate := fun t _ => (t, 0) }

/-- The model of `initialModel` for a given loaded `Config`: loading, no items, no
filter. -/
def initialModel (config : Config) : model :=
  { list := { items := [], Title := "awsbreeze - AWS What\x27s New", index := 0, width := 0, height := 0 },
    items := [], config := config, loading := true, err := none,
    filterInput := { value := "", focus := false }, filtering := false, filterDays := 0,
    showHelp := false }

/-- The nanoseconds of one day of 24 hours. -/
def Day : Int := 24 * Hour

/-! ## Scenario of the pruning claim -/

/-- The model of scenario 5: seen-map `a ↦ true, b ↦ true`, one current item with
GUID `a`. -/
def pruneScenario : model :=
  { initialModel { LastSeen := some ((AList.singleton "b" true).insert "a" true), LastRun := 0 } with
    items := [mkItem "a" 0 false] }

/-! ## The filter as the specification words it -/

/-- The filtered list as the specification words it: the items for which the filter is
off (`filterDays = 0`) or the exact age in whole days is at most `filterDays`. -/
def filterSpec (now : Time) (filterDays : Int) (items : List NewsItem) : List NewsItem :=
  items.filter (fun i => decide (filterDays = 0 ∨ wholeDaysSpec now i.PubDate ≤ filterDays))

/-- A model outside loading with the given items and day filter. -/
def filterModel (filterDays : Int) (items : List NewsItem) : model :=
  { initialModel { LastSeen := some ∅, LastRun := 0 } with
    items := items, filterDays := filterDays, loading := false }

/-- An instant of November 2025, used as the current time of the scenarios. -/
def sampleNow : Time := 1762214400000000000

/-! ## Decimal numerals -/

/-- A decimal digit. -/
def isDecDigit (c : Char) : Bool := decide ('0' ≤ c ∧ c ≤ '9')

/-- The number a string of decimal digits denotes, most significant digit first. -/
def numeralValue (ds : List Char) : Nat :=
  ds.foldl (fun n c => n * 10 + (c.toNat - '0'.toNat)) 0

/-- A string is a decimal integer in the sense of `strconv`: an optional sign `+` or
`-` followed by at least one character, all of them decimal digits. -/
def IsDecimalInteger (s : String) : Prop :=
  ∃ sign ds, s.toList = sign ++ ds ∧ (sign = [] ∨ sign = ['+'] ∨ sign = ['-'])
    ∧ ds ≠ [] ∧ ∀ c ∈ ds, isDecDigit c = true

/-! ## The kept characters as the specification words them -/

/-- Position `i` of `cs` is preceded by a `<` with no `>` in between (the words of the
specification). -/
def Suppressed (cs : List Char) (i : Nat) : Prop :=
  ∃ j, j < i ∧ cs[j]? = some '<' ∧ ∀ k, k < i → j < k → cs[k]? ≠ some '>'

/-- Whether a position is suppressed can be computed. -/
instance (cs : List Char) (i : Nat) : Decidable (Suppressed cs i) := by
  unfold Suppressed
  infer_instance

/-- The character at position `i` of `cs` is kept: it is neither `<` nor `>` and the
position is not suppressed (the words of the specification). -/
def Visible (cs : List Char) (i : Nat) : Prop :=
  cs[i]? ≠ some '<' ∧ cs[i]? ≠ some '>' ∧ ¬ Suppressed cs i

/-- Whether a character is kept can be computed. -/
instance (cs : List Char) (i : Nat) : Decidable (Visible cs i) := by
  unfold Visible
  infer_instance

/-- The kept characters of `cs`, in order (the words of the specification). -/
def keptSpec (cs : List Char) : List Char :=
  (List.range cs.length).filterMap (fun i => if Visible cs i then cs[i]? else none)

/-! ## Ranges of floats -/

/-- The float `x` is not negative and lies between the naturals `lo` and `hi`. -/
def F64.Between (x : F64) (lo hi : Nat) : Prop :=
  x.neg = false ∧ lo * x.den ≤ x.num ∧ x.num ≤ hi * x.den

/-- The float `x` is negative or zero. -/
def F64.NonPos (x : F64) : Prop := x.neg = true ∨ x.num = 0

/-! # Theorems -/

/-! ## Lemmas on the loops -/

/-- The collecting loop of `applyFilters` is a `filter`. -/
theorem foldl_collect (c : NewsItem → Prop) [DecidablePred c] (l acc : List NewsItem) :
    l.foldl (fun acc item => if c item then acc else acc ++ [item]) acc
      = acc ++ l.filter (fun i => !decide (c i)) := by
  induction l generalizing acc with
  | nil => simp
  | cons x xs ih =>
    simp only [List.foldl_cons, List.filter_cons]
    by_cases h : c x
    · simp [h, ih]
    · simp [h, ih]

/-- The list handed to the widget by `applyFilters`. -/
theorem applyFilters_list_items (now : Time) (m : model) :
    (applyFilters now m).list.items = m.items.filter (passes now m.filterDays) := by
  have h := foldl_collect (fun item => 0 < m.filterDays ∧ m.filterDays < daysDiff now item.PubDate)
    m.items []
  simp only [applyFilters, List.nil_append] at h ⊢
  rw [h]
  congr 1
  funext i
  simp [passes]

/-- The set of current GUIDs built by `cleanupConfig`. -/
theorem lookup_foldl_insert_true (items : List NewsItem) (acc : SeenMap) (k : String) :
    (items.foldl (fun s item => s.insert item.GUID true) acc).lookup k
      = if k ∈ items.map (fun i => i.GUID) then some true else acc.lookup k := by
  induction items generalizing acc with
  | nil => simp
  | cons x xs ih =>
    simp only [List.foldl_cons, List.map_cons, List.mem_cons]
    rw [ih]
    by_cases h1 : k ∈ xs.map (fun i => i.GUID)
    · simp [h1]
    · by_cases h2 : k = x.GUID
      · subst h2
        simp [h1, AList.lookup_insert]
      · simp [h1, h2, AList.lookup_insert_ne h2]

/-- The copying loop of `cleanupConfig` over entries with distinct keys. -/
theorem lookup_foldl_keep (cur : String → Bool) (l : List (Sigma (fun _ : String => Bool)))
    (hl : l.NodupKeys) (acc : SeenMap) (k : String) :
    (l.foldl (fun s p => if cur p.1 then s.insert p.1 p.2 else s) acc).lookup k
      = if k ∈ l.keys ∧ cur k = true then l.dlookup k else acc.lookup k := by
  induction l generalizing acc with
  | nil => simp
  | cons p ps ih =>
    obtain ⟨a, b⟩ := p
    rw [List.nodupKeys_cons] at hl
    simp only [List.foldl_cons, List.keys_cons, List.mem_cons]
    rw [ih hl.2]
    by_cases hk : k = a
    · subst hk
      have hn : k ∉ ps.keys := hl.1
      by_cases hc : cur k = true
      · simp [hn, hc, AList.lookup_insert, List.dlookup_cons_eq]
      · simp [hn, hc]
    · have hd : List.dlookup k (⟨a, b⟩ :: ps) = List.dlookup k ps :=
        List.dlookup_cons_ne ps (⟨a, b⟩ : Sigma (fun _ : String => Bool)) hk
      have ha : (if cur a = true then AList.insert a b acc else acc).lookup k = acc.lookup k := by
        by_cases hc : cur a = true
        · simp [hc, AList.lookup_insert_ne hk]
        · simp [hc]
      rw [hd, ha]
      simp [hk]

/-! ## C1: pruning -/

/-- C1 (pruning): after `cleanupConfig` the seen-map is exactly the restriction of the
old seen-map to the GUIDs of the current items: a key that is the GUID of an item
keeps its old value, no other key is present, so every key of the result is the
GUID of some item; the items are untouched. `saveConfig` prunes in the same way
after setting `LastRun` to the current time. In scenario 5 (map `a, b`, one item
`a`) the result holds `a ↦ true` and nothing else. -/
theorem cleanupConfig_restricts_seen (now : Time) (m : model) :
    (∀ k, mapGet (cleanupConfig m).config.LastSeen k
        = if k ∈ m.items.map (fun i => i.GUID) then mapGet m.config.LastSeen k else none)
    ∧ (∀ k v, mapGet (cleanupConfig m).config.LastSeen k = some v → ∃ i ∈ m.items, i.GUID = k)
    ∧ (cleanupConfig m).items = m.items
    ∧ (cleanupConfig m).config.LastRun = m.config.LastRun
    ∧ (saveConfig now m).config.LastSeen = (cleanupConfig m).config.LastSeen
    ∧ (saveConfig now m).config.LastRun = now
    ∧ (cleanupConfig pruneScenario).config.LastSeen.map (fun s => s.entries)
        = some [⟨"a", true⟩] := by
  have key : ∀ k, mapGet (cleanupConfig m).config.LastSeen k
      = if k ∈ m.items.map (fun i => i.GUID) then mapGet m.config.LastSeen k else none := by
    intro k
    unfold cleanupConfig
    cases hS : m.config.LastSeen with
    | none => simp [mapGet, hS]
    | some s =>
      simp only [mapGet]
      rw [lookup_foldl_keep _ _ s.nodupKeys]
      have hcur : mapIndex (m.items.foldl (fun s item => s.insert item.GUID true) ∅) k
          = decide (k ∈ m.items.map (fun i => i.GUID)) := by
        unfold mapIndex
        rw [lookup_foldl_insert_true]
        by_cases h : k ∈ m.items.map (fun i => i.GUID) <;> simp [h]
      rw [hcur]
      by_cases h : k ∈ m.items.map (fun i => i.GUID)
      · by_cases hk : k ∈ s.entries.keys
        · simp [h, hk, AList.lookup]
        · have : s.lookup k = none := AList.lookup_eq_none.mpr hk
          simp [h, hk, this]
      · simp [h]
  refine ⟨key, ?_, ?_, ?_, ?_, ?_, ?_⟩
  · intro k v hkv
    rw [key k] at hkv
    by_cases h : k ∈ m.items.map (fun i => i.GUID)
    · obtain ⟨i, hi, rfl⟩ := List.mem_map.mp h
      exact ⟨i, hi, rfl⟩
    · simp [h] at hkv
  · unfold cleanupConfig
    cases m.config.LastSeen <;> rfl
  · unfold cleanupConfig
    cases m.config.LastSeen <;> rfl
  · unfold saveConfig cleanupConfig
    cases m.config.LastSeen <;> rfl
  · unfold saveConfig cleanupConfig
    cases m.config.LastSeen <;> rfl
  · decide

/-- C1 at scenario 5: the key `a` of the pruned map is the GUID of a current item. -/
theorem cleanupConfig_restricts_seen_witness :
    mapGet (cleanupConfig pruneScenario).config.LastSeen "a" = some true
    ∧ ∃ i ∈ pruneScenario.items, i.GUID = "a" :=
  ⟨by decide, (cleanupConfig_restricts_seen 0 pruneScenario).2.1 "a" true (by decide)⟩

/-! ## C2: the new-item law -/

/-- C2 (new-item law): `Update` on a `fetchedMsg` never fails, returns no command,
keeps the configuration, and its items are the fetched items, in order, with
only `IsNew` rewritten; each resulting item is new exactly when its GUID is not a
key of the seen-map and its publication time is strictly after `LastRun`. So an
item published at or before `LastRun` is not new, and an item whose GUID is a key
of the seen-map is not new. Scenario 1: empty map, `LastRun` the zero time, an
item published now is new. Scenario 2: the map holds `a`, item `a` published
after `LastRun` is not new. -/
theorem update_fetched_new_item_law (w : Collab) (now : Time) (m : model)
    (fetched : List NewsItem) :
    ∃ m1, Update w now m (.fetchedMsg fetched) = some (m1, Cmd.none)
      ∧ m1.config = m.config
      ∧ m1.items = fetched.map (fun i =>
          { i with IsNew := decide (mapGet m.config.LastSeen i.GUID = none
                                      ∧ m.config.LastRun < i.PubDate) })
      ∧ (∀ i ∈ m1.items, i.IsNew = true ↔
            (mapGet m.config.LastSeen i.GUID = none ∧ m.config.LastRun < i.PubDate))
      ∧ (∀ i ∈ m1.items, i.PubDate ≤ m.config.LastRun → i.IsNew = false)
      ∧ (∀ i ∈ m1.items, ∀ v, mapGet m.config.LastSeen i.GUID = some v → i.IsNew = false)
      ∧ (∀ t, zeroTime < t →
          (markNew { LastSeen := some ∅, LastRun := zeroTime } [mkItem "a" t false]).map
            (fun i => i.IsNew) = [true])
      ∧ (∀ t l, l < t →
          (markNew { LastSeen := some (AList.singleton "a" true), LastRun := l }
            [mkItem "a" t true]).map (fun i => i.IsNew) = [false]) := by
  have hmap : markNew m.config fetched = fetched.map (fun i =>
      { i with IsNew := decide (mapGet m.config.LastSeen i.GUID = none
                                  ∧ m.config.LastRun < i.PubDate) }) := by
    unfold markNew
    apply List.map_congr_left
    intro i _
    congr 1
    cases h : mapGet m.config.LastSeen i.GUID <;> simp [Time.After]
  have hlaw : ∀ i ∈ markNew m.config fetched, i.IsNew = true ↔
      (mapGet m.config.LastSeen i.GUID = none ∧ m.config.LastRun < i.PubDate) := by
    intro i hi
    rw [hmap] at hi
    obtain ⟨j, _, rfl⟩ := List.mem_map.mp hi
    simp
  refine ⟨applyFilters now { m with loading := false, items := markNew m.config fetched },
    rfl, rfl, hmap, hlaw, ?_, ?_, ?_, ?_⟩
  · intro i hi hle
    have h := hlaw i hi
    cases hn : i.IsNew
    · rfl
    · exact absurd (h.mp hn).2 (not_lt.mpr hle)
  · intro i hi v hv
    have h := hlaw i hi
    cases hn : i.IsNew
    · rfl
    · have := (h.mp hn).1
      rw [hv] at this
      cases this
  · intro t ht
    simp [markNew, mkItem, mapGet, Time.After, ht]
  · intro t l hlt
    simp [markNew, mkItem, mapGet, AList.lookup, AList.singleton]

/-- C2 at scenario 1: with an empty seen-map and `LastRun` the zero time, an item
published at `sampleNow` is new. -/
theorem update_fetched_new_item_law_witness :
    zeroTime < sampleNow
    ∧ (markNew { LastSeen := some ∅, LastRun := zeroTime } [mkItem "a" sampleNow false]).map
        (fun i => i.IsNew) = [true] :=
  ⟨by decide,
   (update_fetched_new_item_law idleWidgets sampleNow
      (initialModel { LastSeen := some ∅, LastRun := zeroTime }) []).elim
    (fun _ h => h.2.2.2.2.2.2.1 sampleNow (by decide))⟩

/-! ## C3: the filter engine -/

set_option maxRecDepth 100000 in
/-- C3, counterexample: the list handed to the view is not always the items whose exact
age in whole days is at most `filterDays`. An item aged 171 days less one
nanosecond has 170 whole days, yet with `filterDays = 170` the code drops it
(`Hours()` rounds the age up to 4104 hours in `float64`, so the code counts 171
days). An item published at the zero time is 739558 days old, yet with
`filterDays = 200000` the code keeps it (`time.Since` saturates at the largest
`Duration`, so the code counts 106751 days). -/
theorem applyFilters_differs_from_exact_days :
    (wholeDaysSpec sampleNow (sampleNow - (171 * Day - 1)) = 170
      ∧ daysDiff sampleNow (sampleNow - (171 * Day - 1)) = 171
      ∧ (applyFilters sampleNow
          (filterModel 170 [mkItem "a" (sampleNow - (171 * Day - 1)) false])).list.items = []
      ∧ filterSpec sampleNow 170 [mkItem "a" (sampleNow - (171 * Day - 1)) false]
          = [mkItem "a" (sampleNow - (171 * Day - 1)) false])
    ∧ (wholeDaysSpec sampleNow zeroTime = 739558
      ∧ daysDiff sampleNow zeroTime = 106751
      ∧ (applyFilters sampleNow (filterModel 200000 [mkItem "z" zeroTime false])).list.items
          = [mkItem "z" zeroTime false]
      ∧ filterSpec sampleNow 200000 [mkItem "z" zeroTime false] = []) := by
  decide

/-! ## The day count of the code against the exact day count -/

/-- The loop behind `log2` finds the highest set bit. -/
theorem log2Loop_spec (fuel n : Nat) (hn : n ≤ fuel) (hpos : 0 < n) :
    2 ^ log2Loop fuel n ≤ n ∧ n < 2 ^ (log2Loop fuel n + 1) := by
  induction fuel generalizing n with
  | zero => omega
  | succ fuel ih =>
    unfold log2Loop
    by_cases h2 : 2 ≤ n
    · rw [if_pos h2]
      obtain ⟨ih1, ih2⟩ := ih (n / 2) (by omega) (by omega)
      constructor
      · rw [pow_succ]
        omega
      · rw [pow_succ]
        omega
    · rw [if_neg h2]
      have : n = 1 := by omega
      subst this
      simp

/-- The function `log2` finds the highest set bit. -/
theorem log2_spec (n : Nat) (hpos : 0 < n) : 2 ^ log2 n ≤ n ∧ n < 2 ^ (log2 n + 1) :=
  log2Loop_spec n n (le_refl _) hpos

/-- A quotient of at most `2^52` is rounded with an exponent that is not positive. -/
theorem roundExp_nonpos (a b : Nat) (ha : 0 < a) (hb : 0 < b) (hab : a ≤ 2 ^ 52 * b) :
    roundExp a b ≤ 0 := by
  obtain ⟨ha1, _⟩ := log2_spec a ha
  obtain ⟨_, hb2⟩ := log2_spec b hb
  have hlt : 2 ^ log2 a < 2 ^ (log2 b + 53) := by
    calc 2 ^ log2 a ≤ a := ha1
      _ ≤ 2 ^ 52 * b := hab
      _ < 2 ^ 52 * 2 ^ (log2 b + 1) := by
          exact Nat.mul_lt_mul_of_pos_left hb2 (Nat.two_pow_pos 52)
      _ = 2 ^ (log2 b + 53) := by
          rw [← pow_add]
          congr 1
          omega
  have hl : log2 a < log2 b + 53 := (Nat.pow_lt_pow_iff_right (by norm_num)).mp hlt
  unfold roundExp
  simp only
  split_ifs <;> omega

/-- Rounding respects whole-number bounds: when `lo ≤ a / b ≤ hi` for naturals `lo` and
`hi`, and the quotient is at most `2^52`, the rounded quotient `m * 2^e` has
`e ≤ 0` and `lo ≤ m * 2^e ≤ hi`. -/
theorem roundRatio_between (a b lo hi : Nat) (hb : 0 < b) (hab : a ≤ 2 ^ 52 * b)
    (hlo : lo * b ≤ a) (hhi : a ≤ hi * b) :
    (roundRatio a b).2 ≤ 0
    ∧ lo * 2 ^ (-(roundRatio a b).2).toNat ≤ (roundRatio a b).1
    ∧ (roundRatio a b).1 ≤ hi * 2 ^ (-(roundRatio a b).2).toNat := by
  unfold roundRatio
  by_cases ha : a = 0
  · subst ha
    have : lo = 0 := by
      rcases Nat.eq_zero_or_pos lo with h | h
      · exact h
      · have := Nat.mul_pos h hb
        omega
    simp [this]
  · have hapos : 0 < a := Nat.pos_of_ne_zero ha
    have he := roundExp_nonpos a b hapos hb hab
    have hcond : ¬ (a = 0 ∨ b = 0) := by omega
    rw [if_neg hcond]
    simp only
    have hz : (roundExp a b).toNat = 0 := by omega
    rw [hz, pow_zero, mul_one]
    have hq1 : ∀ s, lo * 2 ^ s ≤ a * 2 ^ s / b := by
      intro s
      rw [Nat.le_div_iff_mul_le hb]
      calc lo * 2 ^ s * b = lo * b * 2 ^ s := by ring
        _ ≤ a * 2 ^ s := Nat.mul_le_mul_right _ hlo
    have hq2 : ∀ s, a * 2 ^ s / b ≤ hi * 2 ^ s := by
      intro s
      apply Nat.div_le_of_le_mul
      calc a * 2 ^ s ≤ hi * b * 2 ^ s := Nat.mul_le_mul_right _ hhi
        _ = b * (hi * 2 ^ s) := by ring
    split_ifs with hup
    · refine ⟨he, le_trans (hq1 _) (Nat.le_succ _), ?_⟩
      show a * 2 ^ (-(roundExp a b)).toNat / b + 1 ≤ hi * 2 ^ (-(roundExp a b)).toNat
      generalize (-(roundExp a b)).toNat = s at hup ⊢
      have hr : 0 < a * 2 ^ s % b := by omega
      have hdm := Nat.div_add_mod (a * 2 ^ s) b
      have hlt : b * (a * 2 ^ s / b) < b * (hi * 2 ^ s) := by
        calc b * (a * 2 ^ s / b) < a * 2 ^ s := by omega
          _ ≤ hi * b * 2 ^ s := Nat.mul_le_mul_right _ hhi
          _ = b * (hi * 2 ^ s) := by ring
      exact Nat.lt_of_mul_lt_mul_left hlt
    · exact ⟨he, hq1 _, hq2 _⟩

/-- The denominator of a float is positive. -/
theorem F64.den_pos (x : F64) : 0 < x.den := Nat.two_pow_pos _

/-- A rounded quotient lies between the whole-number bounds of the exact quotient. -/
theorem between_of_roundRatio (a b lo hi : Nat) (hb : 0 < b) (hab : a ≤ 2 ^ 52 * b)
    (hlo : lo * b ≤ a) (hhi : a ≤ hi * b) :
    F64.Between { neg := false, mant := (roundRatio a b).1, exp := (roundRatio a b).2 } lo hi := by
  obtain ⟨he, h1, h2⟩ := roundRatio_between a b lo hi hb hab hlo hhi
  have hz : ((roundRatio a b).2).toNat = 0 := by omega
  refine ⟨rfl, ?_, ?_⟩
  · show lo * 2 ^ (-(roundRatio a b).2).toNat ≤ (roundRatio a b).1 * 2 ^ ((roundRatio a b).2).toNat
    rw [hz, pow_zero, mul_one]
    exact h1
  · show (roundRatio a b).1 * 2 ^ ((roundRatio a b).2).toNat ≤ hi * 2 ^ (-(roundRatio a b).2).toNat
    rw [hz, pow_zero, mul_one]
    exact h2

/-- The conversion of a natural number up to `2^52` is exact. -/
theorem ofInt_between (n : Nat) (h : n ≤ 2 ^ 52) : (F64.ofInt (n : Int)).Between n n := by
  have hneg : decide ((n : Int) < 0) = false := by simp
  have := between_of_roundRatio n 1 n n (by norm_num) (by omega) (by omega) (by omega)
  unfold F64.ofInt
  simp only [Int.natAbs_ofNat, hneg]
  exact this

/-- A float in `[xl, xh]` divided by a float that is exactly `Y` lies in `[lo, hi]` when
`lo * Y ≤ xl` and `xh ≤ hi * Y`. -/
theorem div_between (x y : F64) (xl xh Y lo hi : Nat) (hx : x.Between xl xh)
    (hy : y.Between Y Y) (hY : 0 < Y) (h1 : lo * Y ≤ xl) (h2 : xh ≤ hi * Y)
    (hbig : hi ≤ 2 ^ 52) : (x.div y).Between lo hi := by
  obtain ⟨hxn, hx1, hx2⟩ := hx
  obtain ⟨hyn, hy1, hy2⟩ := hy
  have hynum : y.num = Y * y.den := le_antisymm hy2 hy1
  have hb : 0 < x.den * y.num := by
    rw [hynum]
    exact Nat.mul_pos x.den_pos (Nat.mul_pos hY y.den_pos)
  have hlo : lo * (x.den * y.num) ≤ x.num * y.den := by
    rw [hynum]
    calc lo * (x.den * (Y * y.den)) = (lo * Y) * x.den * y.den := by ring
      _ ≤ xl * x.den * y.den := by
          apply Nat.mul_le_mul_right
          exact Nat.mul_le_mul_right _ h1
      _ ≤ x.num * y.den := Nat.mul_le_mul_right _ hx1
  have hhi : x.num * y.den ≤ hi * (x.den * y.num) := by
    rw [hynum]
    calc x.num * y.den ≤ xh * x.den * y.den := Nat.mul_le_mul_right _ hx2
      _ ≤ (hi * Y) * x.den * y.den := by
          apply Nat.mul_le_mul_right
          exact Nat.mul_le_mul_right _ h2
      _ = hi * (x.den * (Y * y.den)) := by ring
  have hab : x.num * y.den ≤ 2 ^ 52 * (x.den * y.num) :=
    le_trans hhi (Nat.mul_le_mul_right _ hbig)
  have := between_of_roundRatio _ _ lo hi hb hab hlo hhi
  unfold F64.div
  simp only [hxn, hyn, Bool.xor_false]
  exact this

/-- The sum of two floats in `[xl, xh]` and `[yl, yh]` lies in `[xl + yl, xh + yh]`. -/
theorem add_between (x y : F64) (xl xh yl yh : Nat) (hx : x.Between xl xh)
    (hy : y.Between yl yh) (hbig : xh + yh ≤ 2 ^ 52) : (x.add y).Between (xl + yl) (xh + yh) := by
  obtain ⟨hxn, hx1, hx2⟩ := hx
  obtain ⟨hyn, hy1, hy2⟩ := hy
  have hs : x.signed y.den + y.signed x.den = ((x.num * y.den + y.num * x.den : Nat) : Int) := by
    unfold F64.signed
    simp [hxn, hyn]
  have hb : 0 < x.den * y.den := Nat.mul_pos x.den_pos y.den_pos
  have hlo : (xl + yl) * (x.den * y.den) ≤ x.num * y.den + y.num * x.den := by
    calc (xl + yl) * (x.den * y.den) = xl * x.den * y.den + yl * y.den * x.den := by ring
      _ ≤ x.num * y.den + y.num * x.den :=
          Nat.add_le_add (Nat.mul_le_mul_right _ hx1) (Nat.mul_le_mul_right _ hy1)
  have hhi : x.num * y.den + y.num * x.den ≤ (xh + yh) * (x.den * y.den) := by
    calc x.num * y.den + y.num * x.den ≤ xh * x.den * y.den + yh * y.den * x.den :=
          Nat.add_le_add (Nat.mul_le_mul_right _ hx2) (Nat.mul_le_mul_right _ hy2)
      _ = (xh + yh) * (x.den * y.den) := by ring
  have hab : x.num * y.den + y.num * x.den ≤ 2 ^ 52 * (x.den * y.den) :=
    le_trans hhi (Nat.mul_le_mul_right _ hbig)
  have := between_of_roundRatio _ _ (xl + yl) (xh + yh) hb hab hlo hhi
  unfold F64.add
  simp only [hs, Int.natAbs_ofNat]
  have hneg : decide (((x.num * y.den + y.num * x.den : Nat) : Int) < 0) = false :=
    decide_eq_false (not_lt.mpr (Int.ofNat_nonneg _))
  rw [hneg]
  exact this

/-- The integer part of a float in `[lo, hi]` lies in `[lo, hi]`. -/
theorem toInt_between (x : F64) (lo hi : Nat) (hx : x.Between lo hi) :
    (lo : Int) ≤ x.toInt ∧ x.toInt ≤ (hi : Int) := by
  obtain ⟨hxn, hx1, hx2⟩ := hx
  unfold F64.toInt
  simp only [hxn, Bool.false_eq_true, if_false]
  constructor
  · exact_mod_cast (Nat.le_div_iff_mul_le x.den_pos).mpr hx1
  · have : x.num / x.den ≤ hi := Nat.div_le_of_le_mul (by rw [Nat.mul_comm]; exact hx2)
    exact_mod_cast this

/-- For a duration that is not negative, the day count of the code is the exact count of
whole days or one more. -/
theorem days_of_duration_bounds (n : Nat) (hn : n ≤ 2 ^ 63 - 1) :
    ((n / 86400000000000 : Nat) : Int) ≤ F64.toInt (F64.div (Hours (n : Int)) (F64.ofInt 24))
    ∧ F64.toInt (F64.div (Hours (n : Int)) (F64.ofInt 24))
        ≤ ((n / 86400000000000 : Nat) : Int) + 1 := by
  have e1 : Int.tdiv (n : Int) Hour = ((n / 3600000000000 : Nat) : Int) := rfl
  have e2 : Int.tmod (n : Int) Hour = ((n % 3600000000000 : Nat) : Int) := rfl
  have hhour : n / 3600000000000 ≤ 2562047 := by
    norm_num at hn
    omega
  have hx1 := ofInt_between (n / 3600000000000) (by norm_num; omega)
  have hx2 := ofInt_between (n % 3600000000000) (by norm_num; omega)
  have hx3 := ofInt_between 3600000000000 (by norm_num)
  have h24 := ofInt_between 24 (by norm_num)
  have hfrac := div_between _ _ _ _ 3600000000000 0 1 hx2 hx3 (by norm_num) (by omega)
    (by omega) (by norm_num)
  have hsum := add_between _ _ _ _ _ _ hx1 hfrac (by norm_num; omega)
  have hdays := div_between _ _ _ _ 24 (n / 86400000000000) (n / 86400000000000 + 1)
    hsum h24 (by norm_num) (by omega) (by omega) (by norm_num; omega)
  have hres := toInt_between _ _ _ hdays
  unfold Hours
  simp only [e1, e2]
  constructor
  · exact hres.1
  · have := hres.2
    push_cast at this ⊢
    exact this

/-- Rounding zero gives zero. -/
theorem roundRatio_zero (b : Nat) : roundRatio 0 b = (0, 0) := by
  unfold roundRatio
  simp

/-- The conversion of an integer that is not positive is negative or zero. -/
theorem ofInt_nonPos (z : Int) (h : z ≤ 0) : (F64.ofInt z).NonPos := by
  rcases lt_or_eq_of_le h with hlt | heq
  · left
    unfold F64.ofInt
    simp [hlt]
  · right
    subst heq
    unfold F64.ofInt F64.num
    simp [roundRatio_zero]

/-- A float that is negative or zero, divided by a float that is not negative, is
negative or zero. -/
theorem div_nonPos (x y : F64) (hx : x.NonPos) (hy : y.neg = false) : (x.div y).NonPos := by
  rcases hx with hneg | hzero
  · left
    unfold F64.div
    simp [hneg, hy]
  · right
    have e : x.div y = { neg := xor x.neg y.neg, mant := 0, exp := 0 } := by
      unfold F64.div
      simp only [hzero, Nat.zero_mul, roundRatio_zero]
    rw [e]
    simp [F64.num]

/-- The scaled numerator of a float that is negative or zero is not positive. -/
theorem signed_nonPos (x : F64) (d : Nat) (hx : x.NonPos) : x.signed d ≤ 0 := by
  unfold F64.signed
  rcases hx with hneg | hzero
  · rw [if_pos hneg]
    exact Int.neg_nonpos_of_nonneg (Int.ofNat_nonneg _)
  · rw [hzero]
    split_ifs <;> simp

/-- The sum of two floats that are negative or zero is negative or zero. -/
theorem add_nonPos (x y : F64) (hx : x.NonPos) (hy : y.NonPos) : (x.add y).NonPos := by
  have hs : x.signed y.den + y.signed x.den ≤ 0 :=
    Int.add_nonpos (signed_nonPos x _ hx) (signed_nonPos y _ hy)
  rcases lt_or_eq_of_le hs with hlt | heq
  · left
    unfold F64.add
    simp [hlt]
  · right
    have e : x.add y = { neg := decide ((0 : Int) < 0), mant := 0, exp := 0 } := by
      unfold F64.add
      simp only [heq, Int.natAbs_zero, roundRatio_zero]
    rw [e]
    simp [F64.num]

/-- The integer part of a float that is negative or zero is not positive. -/
theorem toInt_nonPos (x : F64) (hx : x.NonPos) : x.toInt ≤ 0 := by
  unfold F64.toInt
  rcases hx with hneg | hzero
  · rw [if_pos hneg]
    exact Int.neg_nonpos_of_nonneg (Int.ofNat_nonneg _)
  · rw [hzero]
    split_ifs <;> simp

/-- For a duration that is not positive, the day count of the code is not positive. -/
theorem days_of_duration_nonpos (d : Int) (hd : d ≤ 0) :
    F64.toInt (F64.div (Hours d) (F64.ofInt 24)) ≤ 0 := by
  have hH : (0 : Int) ≤ Hour := by decide
  have hq : Int.tdiv d Hour ≤ 0 := by
    have h := Int.tdiv_nonneg (Int.neg_nonneg_of_nonpos hd) hH
    rw [Int.neg_tdiv] at h
    omega
  have hr : Int.tmod d Hour ≤ 0 := by
    have h := Int.tmod_nonneg Hour (Int.neg_nonneg_of_nonpos hd)
    rw [Int.tmod_def, Int.neg_tdiv] at h
    rw [Int.tmod_def]
    have hm : Hour * -(d.tdiv Hour) = -(Hour * d.tdiv Hour) := by ring
    rw [hm] at h
    omega
  apply toInt_nonPos
  apply div_nonPos _ _ _ (by decide)
  unfold Hours
  apply add_nonPos
  · exact ofInt_nonPos _ hq
  · exact div_nonPos _ _ (ofInt_nonPos _ hr) (by decide)

set_option maxRecDepth 100000 in
/-- The day count of the code for the largest `Duration`. -/
theorem days_of_maxDuration : F64.toInt (F64.div (Hours maxDuration) (F64.ofInt 24)) = 106751 := by
  decide

/-- The day count of the code against the exact count of whole days: for an item
published at most `maxDuration` before `now`, the code counts the exact whole days
or one more; for an item published earlier than that the code counts 106751;
for an item published at or after `now` the code counts at most 0. -/
theorem daysDiff_bounds (now pubDate : Int) :
    (0 ≤ now - pubDate → now - pubDate ≤ maxDuration →
        wholeDaysSpec now pubDate ≤ daysDiff now pubDate
        ∧ daysDiff now pubDate ≤ wholeDaysSpec now pubDate + 1)
    ∧ (maxDuration < now - pubDate → daysDiff now pubDate = 106751)
    ∧ (now - pubDate ≤ 0 → daysDiff now pubDate ≤ 0) := by
  have hmin : minDuration = -9223372036854775808 := by norm_num [minDuration]
  have hmax : maxDuration = 9223372036854775807 := by norm_num [maxDuration]
  refine ⟨?_, ?_, ?_⟩
  · intro h0 h1
    have c1 : ¬ (now - pubDate < minDuration) := by omega
    have c2 : ¬ (maxDuration < now - pubDate) := by omega
    have hS : Since now pubDate = now - pubDate := by
      unfold Since Time.Sub
      rw [if_neg c1, if_neg c2]
    obtain ⟨n, hn⟩ := Int.eq_ofNat_of_zero_le h0
    have hn63 : n ≤ 2 ^ 63 - 1 := by
      have : (n : Int) ≤ 2 ^ 63 - 1 := by
        rw [← hn]
        exact h1
      norm_num at this ⊢
      omega
    have hb := days_of_duration_bounds n hn63
    have hw : wholeDaysSpec now pubDate = ((n / 86400000000000 : Nat) : Int) := by
      unfold wholeDaysSpec
      rw [hn]
      rfl
    unfold daysDiff
    rw [hS, hw, hn]
    exact hb
  · intro h
    have c1 : ¬ (now - pubDate < minDuration) := by omega
    have hS : Since now pubDate = maxDuration := by
      unfold Since Time.Sub
      rw [if_neg c1, if_pos h]
    unfold daysDiff
    rw [hS]
    exact days_of_maxDuration
  · intro h
    have hS : Since now pubDate ≤ 0 := by
      unfold Since Time.Sub
      split_ifs <;> omega
    unfold daysDiff
    exact days_of_duration_nonpos _ hS

/-! ## C3: the filter of the code -/

/-- C3, amended: for `filterDays ≥ 0` the list handed to the view is exactly the
subsequence of `m.items`, in the original order and unaltered, of the items for
which `filterDays = 0` or the day count of the code, `daysDiff`
(`int(time.Since(PubDate).Hours() / 24)`: the age clamped to the `Duration` range,
turned into `float64` hours, divided by 24 and truncated), is at most
`filterDays`; nothing else of the model changes but the title of the list. For
an item published at most `maxDuration` (about 292 years) before `now` the day
count of the code is the exact whole-day age or, for a past item, one more; so
such an item is in the list whenever its exact whole-day age is below
`filterDays`, and every such item in the list has `filterDays = 0` or an exact
whole-day age of at most `filterDays`. -/
theorem applyFilters_filters_by_code_days (now : Time) (m : model) (h : 0 ≤ m.filterDays) :
    (applyFilters now m).list.items
        = m.items.filter
            (fun i => decide (m.filterDays = 0 ∨ daysDiff now i.PubDate ≤ m.filterDays))
    ∧ (applyFilters now m).list.items.Sublist m.items
    ∧ (applyFilters now m).items = m.items
    ∧ (applyFilters now m).config = m.config
    ∧ (applyFilters now m).filterDays = m.filterDays
    ∧ (∀ i ∈ m.items, now - i.PubDate ≤ maxDuration →
        (i ∈ (applyFilters now m).list.items →
            m.filterDays = 0 ∨ wholeDaysSpec now i.PubDate ≤ m.filterDays)
        ∧ (m.filterDays = 0 ∨ wholeDaysSpec now i.PubDate < m.filterDays →
            i ∈ (applyFilters now m).list.items)) := by
  have hitems := applyFilters_list_items now m
  have hlist : (applyFilters now m).list.items = m.items.filter
      (fun i => decide (m.filterDays = 0 ∨ daysDiff now i.PubDate ≤ m.filterDays)) := by
    rw [hitems]
    apply List.filter_congr
    intro i _
    unfold passes
    by_cases h0 : m.filterDays = 0
    · simp [h0]
    · have hpos : 0 < m.filterDays := lt_of_le_of_ne h (Ne.symm h0)
      by_cases hlt : m.filterDays < daysDiff now i.PubDate
      · simp [h0, hpos, hlt]
      · simp [h0, hpos, hlt, not_lt.mp hlt]
  refine ⟨hlist, ?_, rfl, rfl, rfl, ?_⟩
  · rw [hitems]
    exact List.filter_sublist _
  · intro i hi hmax
    obtain ⟨hpast, _, hfuture⟩ := daysDiff_bounds now i.PubDate
    have hwfut : now - i.PubDate ≤ 0 → wholeDaysSpec now i.PubDate ≤ 0 := by
      intro hle
      have hD : (0 : Int) ≤ 24 * Hour := by decide
      have hq := Int.tdiv_nonneg (Int.neg_nonneg_of_nonpos hle) hD
      rw [Int.neg_tdiv] at hq
      unfold wholeDaysSpec
      omega
    rw [hlist]
    simp only [List.mem_filter, decide_eq_true_eq]
    constructor
    · rintro ⟨_, h0 | hle⟩
      · exact Or.inl h0
      · right
        rcases le_or_lt 0 (now - i.PubDate) with hnn | hneg
        · exact le_trans (hpast hnn hmax).1 hle
        · exact le_trans (hwfut (le_of_lt hneg)) h
    · rintro (h0 | hlt)
      · exact ⟨hi, Or.inl h0⟩
      · refine ⟨hi, Or.inr ?_⟩
        rcases le_or_lt 0 (now - i.PubDate) with hnn | hneg
        · have := (hpast hnn hmax).2
          omega
        · exact le_trans (hfuture (le_of_lt hneg)) h

set_option maxRecDepth 100000 in
/-- Scenario 3 for C3: with `filterDays = 7`, of three items aged 3, 8 and 10 days only
the item aged 3 days is handed to the view. -/
theorem applyFilters_scenario_three :
    (0 : Int) ≤ (filterModel 7 [mkItem "x" (sampleNow - 3 * Day) false,
        mkItem "y" (sampleNow - 8 * Day) false, mkItem "z" (sampleNow - 10 * Day) false]).filterDays
    ∧ (applyFilters sampleNow (filterModel 7 [mkItem "x" (sampleNow - 3 * Day) false,
        mkItem "y" (sampleNow - 8 * Day) false,
        mkItem "z" (sampleNow - 10 * Day) false])).list.items
      = [mkItem "x" (sampleNow - 3 * Day) false] :=
  ⟨by decide,
   (applyFilters_filters_by_code_days sampleNow
      (filterModel 7 [mkItem "x" (sampleNow - 3 * Day) false,
        mkItem "y" (sampleNow - 8 * Day) false, mkItem "z" (sampleNow - 10 * Day) false])
      (by decide)).1.trans (by decide)⟩

/-! ## C4: filter monotonicity -/

/-- C4 (filter monotonicity): for `0 < d1 ≤ d2` the list filtered with `filterDays = d1`
is a subsequence of the list filtered with `filterDays = d2`, so every item of the
first is in the second; with `filterDays = 0` the filtered list is the full item
list. -/
theorem applyFilters_monotone (now : Time) (m : model) (d1 d2 : Int)
    (h1 : 0 < d1) (h2 : d1 ≤ d2) :
    (applyFilters now { m with filterDays := d1 }).list.items.Sublist
        (applyFilters now { m with filterDays := d2 }).list.items
    ∧ (∀ i ∈ (applyFilters now { m with filterDays := d1 }).list.items,
          i ∈ (applyFilters now { m with filterDays := d2 }).list.items)
    ∧ (applyFilters now { m with filterDays := 0 }).list.items = m.items := by
  have hsub : (applyFilters now { m with filterDays := d1 }).list.items.Sublist
      (applyFilters now { m with filterDays := d2 }).list.items := by
    rw [applyFilters_list_items, applyFilters_list_items]
    show (m.items.filter (passes now d1)).Sublist (m.items.filter (passes now d2))
    have hpq : ∀ i, passes now d1 i = true → passes now d2 i = true := by
      intro i hi
      have h2pos : 0 < d2 := lt_of_lt_of_le h1 h2
      simp only [passes, h1, h2pos, decide_True, Bool.true_and, Bool.not_eq_true',
        decide_eq_false_iff_not, not_lt] at hi ⊢
      exact le_trans hi h2
    have hff : m.items.filter (passes now d1)
        = (m.items.filter (passes now d2)).filter (passes now d1) := by
      rw [List.filter_filter]
      apply List.filter_congr
      intro i _
      cases hi : passes now d1 i
      · simp
      · simp [hpq i hi]
    rw [hff]
    exact List.filter_sublist _
  refine ⟨hsub, fun i hi => hsub.subset hi, ?_⟩
  rw [applyFilters_list_items]
  show m.items.filter (passes now 0) = m.items
  apply List.filter_eq_self.mpr
  intro i _
  simp [passes]

set_option maxRecDepth 100000 in
/-- A concrete instance of C4: widening the filter from 7 to 9 days keeps the 3-day item
and adds the 8-day item. -/
theorem applyFilters_monotone_witness :
    ((0 : Int) < 7 ∧ (7 : Int) ≤ 9)
    ∧ (applyFilters sampleNow { filterModel 0 [mkItem "x" (sampleNow - 3 * Day) false,
          mkItem "y" (sampleNow - 8 * Day) false] with filterDays := 7 }).list.items.Sublist
        (applyFilters sampleNow { filterModel 0 [mkItem "x" (sampleNow - 3 * Day) false,
          mkItem "y" (sampleNow - 8 * Day) false] with filterDays := 9 }).list.items
    ∧ (applyFilters sampleNow { filterModel 0 [mkItem "x" (sampleNow - 3 * Day) false,
          mkItem "y" (sampleNow - 8 * Day) false] with filterDays := 9 }).list.items.length = 2 :=
  ⟨by decide,
   (applyFilters_monotone sampleNow (filterModel 0 [mkItem "x" (sampleNow - 3 * Day) false,
      mkItem "y" (sampleNow - 8 * Day) false]) 7 9 (by decide) (by decide)).1,
   by decide⟩

/-! ## C5 and C6: marking an item seen -/

/-- The loop of `markAsSeen` changes the first item with the GUID and nothing else. -/
theorem clearFirst_split (g : String) (pre : List NewsItem) (i : NewsItem) (post : List NewsItem)
    (hpre : ∀ j ∈ pre, j.GUID ≠ g) (hi : i.GUID = g) :
    clearFirst g (pre ++ i :: post) = pre ++ { i with IsNew := false } :: post := by
  induction pre with
  | nil => simp [clearFirst, hi]
  | cons x xs ih =>
    have hx : x.GUID ≠ g := hpre x (List.mem_cons_self _ _)
    have hxs : ∀ j ∈ xs, j.GUID ≠ g := fun j hj => hpre j (List.mem_cons_of_mem _ hj)
    simp [clearFirst, hx, ih hxs]

/-- The loop of `markAsSeen` changes nothing when no item has the GUID. -/
theorem clearFirst_absent (g : String) (l : List NewsItem) (h : ∀ j ∈ l, j.GUID ≠ g) :
    clearFirst g l = l := by
  induction l with
  | nil => rfl
  | cons x xs ih =>
    have hx : x.GUID ≠ g := h x (List.mem_cons_self _ _)
    have hxs : ∀ j ∈ xs, j.GUID ≠ g := fun j hj => h j (List.mem_cons_of_mem _ hj)
    simp [clearFirst, hx, ih hxs]

/-- With pairwise distinct GUIDs the loop of `markAsSeen` clears every item with the
GUID. -/
theorem clearFirst_nodup (g : String) (l : List NewsItem)
    (h : (l.map (fun i => i.GUID)).Nodup) :
    clearFirst g l = l.map (fun i => if i.GUID = g then { i with IsNew := false } else i) := by
  induction l with
  | nil => rfl
  | cons x xs ih =>
    rw [List.map_cons, List.nodup_cons] at h
    by_cases hx : x.GUID = g
    · have hxs : ∀ j ∈ xs, j.GUID ≠ g := by
        intro j hj hjg
        exact h.1 (List.mem_map.mpr ⟨j, hj, hjg.trans hx.symm⟩)
      have hid : xs.map (fun i => if i.GUID = g then { i with IsNew := false } else i) = xs := by
        conv_rhs => rw [← List.map_id xs]
        apply List.map_congr_left
        intro j hj
        simp [hxs j hj]
      simp [clearFirst, hx, hid]
    · simp [clearFirst, hx, ih h.2]

/-- Running the loop of `markAsSeen` twice is running it once. -/
theorem clearFirst_idem (g : String) (l : List NewsItem) :
    clearFirst g (clearFirst g l) = clearFirst g l := by
  induction l with
  | nil => rfl
  | cons x xs ih =>
    by_cases hx : x.GUID = g
    · simp [clearFirst, hx]
    · simp [clearFirst, hx, ih]

/-- C5, counterexample: a feed with two entries of GUID `a`, both unseen and published
after `LastRun`, gives two new items; after `markAsSeen("a")` the second item
with GUID `a` is still new, because the loop stops at the first match. -/
theorem markAsSeen_leaves_second_duplicate_new :
    (Update idleWidgets sampleNow (initialModel { LastSeen := some ∅, LastRun := 0 })
        (.fetchedMsg [mkItem "a" (sampleNow - Day) false, mkItem "a" (sampleNow - Day) false])).map
      (fun r => ((r.1.items.map (fun i => (i.GUID, i.IsNew))),
        (markAsSeen sampleNow r.1 "a").items.map (fun i => (i.GUID, i.IsNew))))
      = some ([("a", true), ("a", true)], [("a", false), ("a", true)]) := by
  decide

/-- C5, amended (mark-seen): after `markAsSeen(g)` the seen-map holds `g ↦ true` (the
map is created when it was nil) and every other key is as before; the first item of
`m.items` whose GUID is `g` has `IsNew = false` and every other item is unchanged,
nothing changes when no item has that GUID, and when the GUIDs of `m.items` are
pairwise distinct every item with GUID `g` has `IsNew = false` and every item
with another GUID is unchanged; `filterDays` and `LastRun` are unchanged; the
displayed list is the filter of the updated items. The key `enter`, outside
filter entry and with an item selected, runs `markAsSeen` on the GUID of that
item and asks to open its link. -/
theorem markAsSeen_effect (w : Collab) (now : Time) (m : model) (g : String) :
    mapGet (markAsSeen now m g).config.LastSeen g = some true
    ∧ (∀ k, k ≠ g → mapGet (markAsSeen now m g).config.LastSeen k = mapGet m.config.LastSeen k)
    ∧ (∀ pre i post, m.items = pre ++ i :: post → (∀ j ∈ pre, j.GUID ≠ g) → i.GUID = g →
          (markAsSeen now m g).items = pre ++ { i with IsNew := false } :: post)
    ∧ ((∀ j ∈ m.items, j.GUID ≠ g) → (markAsSeen now m g).items = m.items)
    ∧ ((m.items.map (fun i => i.GUID)).Nodup →
          (markAsSeen now m g).items
            = m.items.map (fun i => if i.GUID = g then { i with IsNew := false } else i))
    ∧ (markAsSeen now m g).filterDays = m.filterDays
    ∧ (markAsSeen now m g).config.LastRun = m.config.LastRun
    ∧ (markAsSeen now m g).list.items
        = (markAsSeen now m g).items.filter (passes now (markAsSeen now m g).filterDays)
    ∧ (∀ sel, m.filtering = false → SelectedItem m.list = some sel →
          Update w now m (.KeyMsg "enter")
            = some (markAsSeen now m sel.GUID, Cmd.openURL sel.Link)) := by
  have hitems : (markAsSeen now m g).items = clearFirst g m.items := rfl
  refine ⟨?_, ?_, ?_, ?_, ?_, rfl, rfl, ?_, ?_⟩
  · show ((m.config.LastSeen.getD ∅).insert g true).lookup g = some true
    exact AList.lookup_insert _
  · intro k hk
    show ((m.config.LastSeen.getD ∅).insert g true).lookup k = mapGet m.config.LastSeen k
    rw [AList.lookup_insert_ne hk]
    cases m.config.LastSeen <;> simp [mapGet]
  · intro pre i post hsplit hpre hi
    rw [hitems, hsplit]
    exact clearFirst_split g pre i post hpre hi
  · intro h
    rw [hitems]
    exact clearFirst_absent g m.items h
  · intro h
    rw [hitems]
    exact clearFirst_nodup g m.items h
  · unfold markAsSeen
    rw [applyFilters_list_items]
    rfl
  · intro sel hf hsel
    have hlen : 0 < m.list.items.length := by
      unfold SelectedItem at hsel
      rcases List.get?_eq_some.mp hsel with ⟨hlt, _⟩
      exact lt_of_le_of_lt (Nat.zero_le _) hlt
    simp [Update, hf, hsel, hlen]

/-- C5 on a model with the distinct GUIDs `a` and `b`, both new: after
`markAsSeen("a")` item `a` is not new and item `b` is unchanged. -/
theorem markAsSeen_effect_witness :
    ((filterModel 0 [mkItem "a" 0 true, mkItem "b" 0 true]).items.map (fun i => i.GUID)).Nodup
    ∧ (markAsSeen sampleNow (filterModel 0 [mkItem "a" 0 true, mkItem "b" 0 true]) "a").items
        = [mkItem "a" 0 false, mkItem "b" 0 true] :=
  ⟨by decide,
   ((markAsSeen_effect idleWidgets sampleNow
      (filterModel 0 [mkItem "a" 0 true, mkItem "b" 0 true]) "a").2.2.2.2.1 (by decide)).trans
     (by decide)⟩

/-- C6 (idempotence): `markAsSeen(g)` applied twice gives the same model, hence the
same seen-map, the same items with the same `IsNew` flags and the same filtered
view, as `markAsSeen(g)` applied once. When the clock moves between the two calls
(`now1`, then `now2`) the seen-map and the items are still those of one call, and
the whole model is the one a single call at `now2` gives. -/
theorem markAsSeen_idempotent (now1 now2 : Time) (m : model) (g : String) :
    markAsSeen now1 (markAsSeen now1 m g) g = markAsSeen now1 m g
    ∧ (markAsSeen now1 (markAsSeen now1 m g) g).list.items = (markAsSeen now1 m g).list.items
    ∧ markAsSeen now2 (markAsSeen now1 m g) g = markAsSeen now2 m g
    ∧ (markAsSeen now2 (markAsSeen now1 m g) g).config.LastSeen
        = (markAsSeen now1 m g).config.LastSeen
    ∧ (markAsSeen now2 (markAsSeen now1 m g) g).items = (markAsSeen now1 m g).items := by
  have h : ∀ t1 t2, markAsSeen t2 (markAsSeen t1 m g) g = markAsSeen t2 m g := by
    intro t1 t2
    simp [markAsSeen, applyFilters, clearFirst_idem, AList.insert_insert]
  refine ⟨h now1 now1, by rw [h now1 now1], h now1 now2, ?_, ?_⟩
  · rw [h now1 now2]
    rfl
  · rw [h now1 now2]
    rfl

/-! ## C7: refresh -/

/-- C7, counterexample: the initial model is loading, and the key `r` returns the
command `fetchNews` for it (the model itself is returned unchanged): a refresh
request while loading does dispatch a fetch. -/
theorem refresh_while_loading_dispatches_fetch :
    (initialModel { LastSeen := some ∅, LastRun := 0 }).loading = true
    ∧ mode (initialModel { LastSeen := some ∅, LastRun := 0 }) = SessionMode.Loading
    ∧ Update idleWidgets sampleNow (initialModel { LastSeen := some ∅, LastRun := 0 })
          (.KeyMsg "r")
        = some (initialModel { LastSeen := some ∅, LastRun := 0 }, Cmd.fetchNews) := by
  decide

/-- C7, amended (refresh): outside filter entry the key `r` sets `loading`, changes
nothing else and returns `fetchNews`, whatever the mode; for a model that is
already loading the returned model equals the input and `fetchNews` is returned
all the same. In filter entry the key goes to the text input and the command is
the one of the widget. `Update` returns `fetchNews` for no other message than the
key `r` outside filter entry. -/
theorem update_refresh (w : Collab) (now : Time) (m : model) :
    (m.filtering = false →
        Update w now m (.KeyMsg "r") = some ({ m with loading := true }, Cmd.fetchNews))
    ∧ (m.filtering = false → m.loading = true →
        Update w now m (.KeyMsg "r") = some (m, Cmd.fetchNews))
    ∧ (m.filtering = true →
        Update w now m (.KeyMsg "r")
          = some ({ m with filterInput := (w.inputUpdate m.filterInput (.KeyMsg "r")).1 },
                  Cmd.widget (w.inputUpdate m.filterInput (.KeyMsg "r")).2))
    ∧ (∀ msg m1, Update w now m msg = some (m1, Cmd.fetchNews) →
        msg = .KeyMsg "r" ∧ m.filtering = false ∧ m1 = { m with loading := true }) := by
  refine ⟨?_, ?_, ?_, ?_⟩
  · intro hf
    simp [Update, hf]
  · intro hf hl
    have hm : ({ m with loading := true } : model) = m := by
      cases m
      simp only at hl
      subst hl
      rfl
    have hu : Update w now m (.KeyMsg "r") = some ({ m with loading := true }, Cmd.fetchNews) := by
      simp [Update, hf]
    rw [hu, hm]
  · intro hf
    simp [Update, hf]
  · intro msg m1 h
    cases msg with
    | WindowSizeMsg a b => simp [Update] at h
    | fetchedMsg items => simp [Update] at h
    | errMsg e => simp [Update] at h
    | other t => simp [Update] at h
    | KeyMsg key =>
      unfold Update at h
      simp only at h
      split_ifs at h with h1 h2 h3 h4 h5 h6 h7 h8 h9 h10 h11
      all_goals first
        | (simp at h; done)
        | (cases hs : SelectedItem m.list <;> simp [hs] at h; done)
        | (simp at h
           refine ⟨by simp_all, by simpa using h1, h.symm⟩)

/-- C7 on a browsing model: the key `r` sets `loading` and returns `fetchNews`. -/
theorem update_refresh_witness :
    (filterModel 0 []).filtering = false
    ∧ Update idleWidgets sampleNow (filterModel 0 []) (.KeyMsg "r")
        = some ({ filterModel 0 [] with loading := true }, Cmd.fetchNews) :=
  ⟨rfl, (update_refresh idleWidgets sampleNow (filterModel 0 [])).1 rfl⟩

/-! ## C8: leaving the loading mode -/

/-- C8, counterexample: (1) the key `f` during loading sets filter entry, and the
successful fetch that follows leaves the session in `EnteringFilter`, not in
`Browsing`; (2) after a failed fetch the session is in `Error`, the key `r` takes
it to `Loading`, and the successful fetch that follows leaves it in `Error`
again, because `err` is never reset. -/
theorem fetched_does_not_always_reach_browsing :
    (((Update idleWidgets sampleNow (initialModel { LastSeen := some ∅, LastRun := 0 })
          (.KeyMsg "f")).map (fun r => mode r.1) = some SessionMode.Loading)
      ∧ ((Update idleWidgets sampleNow (initialModel { LastSeen := some ∅, LastRun := 0 })
            (.KeyMsg "f")).bind
          (fun r => Update idleWidgets sampleNow r.1 (.fetchedMsg []))).map (fun r => mode r.1)
          = some SessionMode.EnteringFilter)
    ∧ (((Update idleWidgets sampleNow (initialModel { LastSeen := some ∅, LastRun := 0 })
          (.errMsg "timeout")).map (fun r => mode r.1) = some SessionMode.Error)
      ∧ (((Update idleWidgets sampleNow (initialModel { LastSeen := some ∅, LastRun := 0 })
            (.errMsg "timeout")).bind
          (fun r => Update idleWidgets sampleNow r.1 (.KeyMsg "r"))).map (fun r => mode r.1)
          = some SessionMode.Loading)
      ∧ ((((Update idleWidgets sampleNow (initialModel { LastSeen := some ∅, LastRun := 0 })
            (.errMsg "timeout")).bind
          (fun r => Update idleWidgets sampleNow r.1 (.KeyMsg "r"))).bind
          (fun r => Update idleWidgets sampleNow r.1 (.fetchedMsg []))).map (fun r => mode r.1)
          = some SessionMode.Error)) := by
  decide

/-- C8, amended (leaving `Loading`): `Update` on a `fetchedMsg` clears `loading` and
keeps `filtering`; for a model that holds no error the resulting mode is
`Browsing` when the model is not in filter entry and `EnteringFilter` when it is.
`Update` on an `errMsg` stores the error and the resulting mode is `Error`, for
every model. -/
theorem update_fetch_result_mode (w : Collab) (now : Time) (m : model) :
    (∀ items, ∃ m1, Update w now m (.fetchedMsg items) = some (m1, Cmd.none)
        ∧ m1.loading = false ∧ m1.filtering = m.filtering
        ∧ (m.err = none → m.filtering = false → mode m1 = SessionMode.Browsing)
        ∧ (m.err = none → m.filtering = true → mode m1 = SessionMode.EnteringFilter))
    ∧ (∀ e, ∃ m1, Update w now m (.errMsg e) = some (m1, Cmd.none)
        ∧ m1.err = some e ∧ mode m1 = SessionMode.Error) := by
  refine ⟨?_, ?_⟩
  · intro items
    refine ⟨_, rfl, rfl, rfl, ?_, ?_⟩
    · intro he hf
      simp [mode, applyFilters, he, hf]
    · intro he hf
      simp [mode, applyFilters, he, hf]
  · intro e
    exact ⟨_, rfl, rfl, by simp [mode]⟩

/-- C8 on the initial model, which holds no error and is not in filter entry: the
successful fetch leaves it in `Browsing`. -/
theorem update_fetch_result_mode_witness :
    ∃ m1, Update idleWidgets sampleNow (initialModel { LastSeen := some ∅, LastRun := 0 })
            (.fetchedMsg [mkItem "a" 0 false]) = some (m1, Cmd.none)
      ∧ mode m1 = SessionMode.Browsing :=
  ((update_fetch_result_mode idleWidgets sampleNow
      (initialModel { LastSeen := some ∅, LastRun := 0 })).1 [mkItem "a" 0 false]).elim
    (fun m1 h => ⟨m1, h.1, h.2.2.2.1 rfl rfl⟩)

/-! ## C9: the day filter entry -/

/-- On digits only, the loop of `ParseUint` returns the value or a range error. -/
theorem parseUintLoop_digits (cs : List Char) (n : Nat) (h : ∀ c ∈ cs, isDecDigit c = true) :
    parseUintLoop cs n = .ok (cs.foldl (fun n c => n * 10 + (c.toNat - '0'.toNat)) n)
    ∨ parseUintLoop cs n = .error .ErrRange := by
  induction cs generalizing n with
  | nil => exact Or.inl rfl
  | cons c cs ih =>
    have hc : '0' ≤ c ∧ c ≤ '9' := by simpa [isDecDigit] using h c (List.mem_cons_self _ _)
    have hcs : ∀ d ∈ cs, isDecDigit d = true := fun d hd => h d (List.mem_cons_of_mem _ hd)
    unfold parseUintLoop
    rw [if_pos hc]
    split_ifs
    · exact Or.inr rfl
    · exact Or.inr rfl
    · exact ih _ hcs

/-- The accumulator of the loop of `ParseUint` never decreases. -/
theorem foldl_digits_ge (cs : List Char) (n : Nat) :
    n ≤ cs.foldl (fun n c => n * 10 + (c.toNat - '0'.toNat)) n := by
  induction cs generalizing n with
  | nil => exact le_refl _
  | cons c cs ih =>
    simp only [List.foldl_cons]
    exact le_trans (by omega) (ih _)

/-- On digits only, the loop of `ParseUint` returns the value when it fits `uint64`. -/
theorem parseUintLoop_digits_small (cs : List Char) (n : Nat)
    (h : ∀ c ∈ cs, isDecDigit c = true)
    (hv : cs.foldl (fun n c => n * 10 + (c.toNat - '0'.toNat)) n < 2 ^ 64) :
    parseUintLoop cs n = .ok (cs.foldl (fun n c => n * 10 + (c.toNat - '0'.toNat)) n) := by
  induction cs generalizing n with
  | nil => rfl
  | cons c cs ih =>
    have hc : '0' ≤ c ∧ c ≤ '9' := by simpa [isDecDigit] using h c (List.mem_cons_self _ _)
    have hcs : ∀ d ∈ cs, isDecDigit d = true := fun d hd => h d (List.mem_cons_of_mem _ hd)
    simp only [List.foldl_cons] at hv
    have hge := foldl_digits_ge cs (n * 10 + (c.toNat - '0'.toNat))
    have hlt : n * 10 + (c.toNat - '0'.toNat) < 2 ^ 64 := lt_of_le_of_lt hge hv
    unfold parseUintLoop
    rw [if_pos hc]
    have h1 : ¬ ((2 ^ 64 - 1) / 10 + 1 ≤ n) := by
      norm_num at hlt ⊢
      omega
    have h2 : ¬ (2 ^ 64 - 1 < n * 10 + (c.toNat - '0'.toNat)) := by
      norm_num at hlt ⊢
      omega
    rw [if_neg h1, if_neg h2]
    simp only [List.foldl_cons]
    exact ih _ hcs hv

/-- A character that is not a digit makes the loop of `ParseUint` fail. -/
theorem parseUintLoop_nondigit (cs : List Char) (n : Nat)
    (h : ∃ c ∈ cs, isDecDigit c = false) :
    ∃ e, parseUintLoop cs n = .error e := by
  induction cs generalizing n with
  | nil => simp at h
  | cons c cs ih =>
    unfold parseUintLoop
    by_cases hc : '0' ≤ c ∧ c ≤ '9'
    · rw [if_pos hc]
      have hcs : ∃ d ∈ cs, isDecDigit d = false := by
        obtain ⟨d, hd, hdd⟩ := h
        rcases List.mem_cons.mp hd with rfl | hd
        · simp [isDecDigit, hc] at hdd
        · exact ⟨d, hd, hdd⟩
      split_ifs
      · exact ⟨_, rfl⟩
      · exact ⟨_, rfl⟩
      · exact ih _ hcs
    · rw [if_neg hc]
      exact ⟨_, rfl⟩

/-- The empty string is the only string without characters. -/
theorem string_eq_empty_iff (s : String) : s = "" ↔ s.toList = [] := by
  constructor
  · intro h
    subst h
    rfl
  · intro h
    cases s with
    | mk data =>
      simp only [String.toList] at h
      subst h
      rfl

/-- The value `parseDays` returns when `ParseUint` fails on the text after the sign. -/
theorem parseDays_of_parseUint_error (s : String) (c : Char) (cs : List Char)
    (hs : s.toList = c :: cs) (e : NumError)
    (he : parseUintLoop (if c = '+' ∨ c = '-' then cs else c :: cs) 0 = .error e) :
    parseDays s = 0 := by
  have hne : s ≠ "" := by
    intro h
    rw [string_eq_empty_iff, hs] at h
    cases h
  unfold parseDays
  rw [if_neg hne]
  unfold Atoi
  rw [hs]
  simp only
  unfold ParseUint
  rw [he]
  by_cases hr : (if c = '+' ∨ c = '-' then cs else c :: cs) = []
  · rw [if_pos hr]
    simp
  · rw [if_neg hr]
    cases e with
    | ErrSyntax => simp
    | ErrRange =>
      by_cases hneg : c = '-'
      · simp [hneg, intSize]
      · simp [hneg, intSize]

/-- The value `parseDays` returns when `ParseUint` succeeds on the text after the sign. -/
theorem parseDays_of_parseUint_ok (s : String) (c : Char) (cs : List Char)
    (hs : s.toList = c :: cs) (un : Nat)
    (hr : (if c = '+' ∨ c = '-' then cs else c :: cs) ≠ [])
    (hok : parseUintLoop (if c = '+' ∨ c = '-' then cs else c :: cs) 0 = .ok un) :
    parseDays s = if c = '-' ∨ 2 ^ 63 ≤ un then 0 else (un : Int) := by
  have hne : s ≠ "" := by
    intro h
    rw [string_eq_empty_iff, hs] at h
    cases h
  unfold parseDays
  rw [if_neg hne]
  unfold Atoi
  rw [hs]
  simp only
  unfold ParseUint
  rw [hok, if_neg hr]
  have e63 : (2 : Nat) ^ 63 = 9223372036854775808 := by norm_num
  rw [e63]
  by_cases hneg : c = '-'
  · by_cases hbig : 9223372036854775808 < un
    · simp [hneg, intSize, hbig]
    · have : (-(un : Int)) < 0 ∨ un = 0 := by omega
      rcases this with h | h
      · simp [hneg, intSize, hbig, h]
      · simp [hneg, intSize, h]
  · by_cases hbig : 9223372036854775808 ≤ un
    · simp [hneg, intSize, hbig]
    · have hnn : ¬ ((un : Int) < 0) := by omega
      simp [hneg, intSize, hbig, hnn]

/-- The decimal digit characters of `Nat.repr` are digits with the right value. -/
theorem digitChar_spec (k : Nat) (h : k < 10) :
    isDecDigit (Nat.digitChar k) = true ∧ (Nat.digitChar k).toNat - '0'.toNat = k := by
  interval_cases k <;> decide

/-- The value of a digit string extended by one digit. -/
theorem numeralValue_append_singleton (pre : List Char) (d : Char) :
    numeralValue (pre ++ [d]) = numeralValue pre * 10 + (d.toNat - '0'.toNat) := by
  simp [numeralValue, List.foldl_append]

/-- The digits `Nat.toDigitsCore` puts in front of its accumulator are a numeral of the
number. -/
theorem toDigitsCore_spec (fuel n : Nat) (ds : List Char) (h : n < fuel) :
    ∃ pre, Nat.toDigitsCore 10 fuel n ds = pre ++ ds ∧ pre ≠ []
      ∧ (∀ c ∈ pre, isDecDigit c = true) ∧ numeralValue pre = n := by
  induction fuel generalizing n ds with
  | zero => omega
  | succ fuel ih =>
    have hd := digitChar_spec (n % 10) (Nat.mod_lt _ (by norm_num))
    unfold Nat.toDigitsCore
    simp only
    by_cases h0 : n / 10 = 0
    · rw [if_pos h0]
      refine ⟨[Nat.digitChar (n % 10)], rfl, by simp, ?_, ?_⟩
      · intro c hc
        rw [List.mem_singleton] at hc
        rw [hc]
        exact hd.1
      · have : numeralValue [Nat.digitChar (n % 10)]
            = (Nat.digitChar (n % 10)).toNat - '0'.toNat := by
          simp [numeralValue]
        rw [this, hd.2]
        omega
    · rw [if_neg h0]
      obtain ⟨pre, hpre, _, hdig, hval⟩ := ih (n / 10) (Nat.digitChar (n % 10) :: ds) (by omega)
      refine ⟨pre ++ [Nat.digitChar (n % 10)], ?_, by simp, ?_, ?_⟩
      · rw [hpre]
        simp
      · intro c hc
        rcases List.mem_append.mp hc with hc | hc
        · exact hdig c hc
        · rw [List.mem_singleton] at hc
          rw [hc]
          exact hd.1
      · rw [numeralValue_append_singleton, hval, hd.2]
        omega

/-- The decimal numeral of a natural number, as `toString` writes it, is a non-empty
string of digits that denotes the number. -/
theorem toString_nat_spec (n : Nat) :
    (toString n).toList ≠ [] ∧ (∀ c ∈ (toString n).toList, isDecDigit c = true)
      ∧ numeralValue (toString n).toList = n := by
  obtain ⟨pre, hpre, hne, hdig, hval⟩ := toDigitsCore_spec (n + 1) n [] (Nat.lt_succ_self n)
  have hl : (toString n).toList = pre := by
    show (Nat.repr n).toList = pre
    unfold Nat.repr Nat.toDigits
    rw [hpre]
    simp [List.asString]
  rw [hl]
  exact ⟨hne, hdig, hval⟩

/-- A string of digits that denotes a number below `2^63` is parsed to that number. -/
theorem parseDays_digits (s : String) (hne : s.toList ≠ [])
    (hdig : ∀ c ∈ s.toList, isDecDigit c = true) (hv : numeralValue s.toList < 2 ^ 63) :
    parseDays s = (numeralValue s.toList : Int) := by
  cases hs : s.toList with
  | nil => exact absurd hs hne
  | cons c cs =>
    rw [hs] at hdig hv
    have hc : '0' ≤ c ∧ c ≤ '9' := by simpa [isDecDigit] using hdig c (List.mem_cons_self _ _)
    have hsign : ¬ (c = '+' ∨ c = '-') := by
      rintro (h | h) <;> subst h <;> exact absurd hc.1 (by decide)
    have hneg : ¬ (c = '-') := fun h => hsign (Or.inr h)
    have hrest : (if c = '+' ∨ c = '-' then cs else c :: cs) = c :: cs := if_neg hsign
    have hv64 : (c :: cs).foldl (fun n c => n * 10 + (c.toNat - '0'.toNat)) 0 < 2 ^ 64 :=
      lt_trans hv (by norm_num)
    have hok := parseUintLoop_digits_small (c :: cs) 0 hdig hv64
    have h := parseDays_of_parseUint_ok s c cs hs _ (by rw [hrest]; simp) (by rw [hrest]; exact hok)
    rw [h]
    have hv2 : ¬ (2 ^ 63 ≤ (c :: cs).foldl (fun n c => n * 10 + (c.toNat - '0'.toNat)) 0) :=
      not_le.mpr hv
    simp only [hneg, hv2, or_self, if_false]
    rfl

/-- C9 (filter entry): `parseDays` is total and its result is never negative; it is 0
for the empty string, for every string that is not a decimal integer (optional
sign, then digits), and for every `-` followed by digits; for digits, with or
without a leading `+`, that denote a number below `2^63` it is that number, in
particular `parseDays (toString n) = n` for `n < 2^63`. In filter entry the key
`enter` sets `filterDays` to `parseDays` of the typed text, leaves filter entry
and recomputes the view; the key `esc` leaves filter entry and changes nothing
else, so `filterDays`, the items and the seen-map are as before. -/
theorem parseDays_and_filter_entry (w : Collab) (now : Time) (m : model) :
    (∀ s, 0 ≤ parseDays s)
    ∧ parseDays "" = 0
    ∧ (∀ s, ¬ IsDecimalInteger s → parseDays s = 0)
    ∧ (∀ ds, ds ≠ [] → (∀ c ∈ ds, isDecDigit c = true) → parseDays (String.mk ('-' :: ds)) = 0)
    ∧ (∀ ds, ds ≠ [] → (∀ c ∈ ds, isDecDigit c = true) → numeralValue ds < 2 ^ 63 →
          parseDays (String.mk ds) = (numeralValue ds : Int)
          ∧ parseDays (String.mk ('+' :: ds)) = (numeralValue ds : Int))
    ∧ (∀ n : Nat, n < 2 ^ 63 → parseDays (toString n) = (n : Int))
    ∧ (parseDays "7" = 7 ∧ parseDays "007" = 7 ∧ parseDays "-3" = 0 ∧ parseDays "abc" = 0
        ∧ parseDays "1.5" = 0 ∧ parseDays " 7" = 0 ∧ parseDays "9223372036854775808" = 0)
    ∧ (m.filtering = true →
          Update w now m (.KeyMsg "enter")
            = some (applyFilters now
                { m with filterDays := parseDays m.filterInput.value, filtering := false },
                Cmd.none)
          ∧ (applyFilters now
                { m with filterDays := parseDays m.filterInput.value,
                         filtering := false }).filterDays = parseDays m.filterInput.value
          ∧ (applyFilters now
                { m with filterDays := parseDays m.filterInput.value,
                         filtering := false }).filtering = false)
    ∧ (m.filtering = true →
          Update w now m (.KeyMsg "esc") = some ({ m with filtering := false }, Cmd.none)) := by
  refine ⟨?_, by decide, ?_, ?_, ?_, ?_, by decide, ?_, ?_⟩
  · intro s
    unfold parseDays
    by_cases h1 : s = ""
    · rw [if_pos h1]
    · rw [if_neg h1]
      rcases Atoi s with ⟨days, err⟩
      show 0 ≤ (if err ≠ none ∨ days < 0 then 0 else days)
      by_cases h2 : err ≠ none ∨ days < 0
      · rw [if_pos h2]
      · rw [if_neg h2]
        push_neg at h2
        exact h2.2
  · intro s hnot
    cases hs : s.toList with
    | nil =>
      have : s = "" := (string_eq_empty_iff s).mpr hs
      subst this
      decide
    | cons c cs =>
      by_cases hrest : (if c = '+' ∨ c = '-' then cs else c :: cs) = []
      · have hne : s ≠ "" := by
          intro h
          rw [string_eq_empty_iff, hs] at h
          cases h
        unfold parseDays
        rw [if_neg hne]
        unfold Atoi
        rw [hs]
        simp only
        unfold ParseUint
        rw [if_pos hrest]
        simp
      · by_cases hall : ∀ d ∈ (if c = '+' ∨ c = '-' then cs else c :: cs), isDecDigit d = true
        · exfalso
          apply hnot
          by_cases hsign : c = '+' ∨ c = '-'
          · rw [if_pos hsign] at hrest hall
            refine ⟨[c], cs, by rw [hs]; rfl, ?_, hrest, hall⟩
            rcases hsign with h | h
            · exact Or.inr (Or.inl (by rw [h]))
            · exact Or.inr (Or.inr (by rw [h]))
          · rw [if_neg hsign] at hrest hall
            exact ⟨[], c :: cs, by rw [hs]; rfl, Or.inl rfl, hrest, hall⟩
        · push_neg at hall
          obtain ⟨d, hd, hdd⟩ := hall
          have hdf : isDecDigit d = false := by
            cases h : isDecDigit d
            · rfl
            · exact absurd h hdd
          obtain ⟨e, he⟩ := parseUintLoop_nondigit _ 0 ⟨d, hd, hdf⟩
          exact parseDays_of_parseUint_error s c cs hs e he
  · intro ds hne hdig
    have hs : (String.mk ('-' :: ds)).toList = '-' :: ds := rfl
    have hrest : (if ('-' : Char) = '+' ∨ ('-' : Char) = '-' then ds else '-' :: ds) = ds :=
      if_pos (Or.inr rfl)
    rcases parseUintLoop_digits ds 0 hdig with hok | herr
    · have h := parseDays_of_parseUint_ok _ '-' ds hs _ (by rw [hrest]; exact hne)
        (by rw [hrest]; exact hok)
      rw [h]
      simp
    · exact parseDays_of_parseUint_error _ '-' ds hs _ (by rw [hrest]; exact herr)
  · intro ds hne hdig hv
    refine ⟨parseDays_digits (String.mk ds) hne hdig hv, ?_⟩
    have hs : (String.mk ('+' :: ds)).toList = '+' :: ds := rfl
    have hrest : (if ('+' : Char) = '+' ∨ ('+' : Char) = '-' then ds else '+' :: ds) = ds :=
      if_pos (Or.inl rfl)
    have hv64 : ds.foldl (fun n c => n * 10 + (c.toNat - '0'.toNat)) 0 < 2 ^ 64 :=
      lt_trans hv (by norm_num)
    have hok := parseUintLoop_digits_small ds 0 hdig hv64
    have h := parseDays_of_parseUint_ok _ '+' ds hs _ (by rw [hrest]; exact hne)
      (by rw [hrest]; exact hok)
    rw [h]
    have hv2 : ¬ (2 ^ 63 ≤ ds.foldl (fun n c => n * 10 + (c.toNat - '0'.toNat)) 0) :=
      not_le.mpr hv
    have hplus : ¬ (('+' : Char) = '-') := by decide
    simp only [hplus, hv2, or_self, if_false]
    rfl
  · intro n hn
    obtain ⟨hne, hdig, hval⟩ := toString_nat_spec n
    have h := parseDays_digits (toString n) hne hdig (by rw [hval]; exact hn)
    rw [h, hval]
  · intro hf
    refine ⟨?_, rfl, rfl⟩
    simp [Update, hf]
  · intro hf
    simp [Update, hf]

/-- C9 on the digits `4`, `2`: `parseDays "42" = 42`. -/
theorem parseDays_and_filter_entry_witness :
    numeralValue ['4', '2'] = 42 ∧ parseDays "42" = 42 :=
  ⟨by decide,
   ((parseDays_and_filter_entry idleWidgets sampleNow (filterModel 0 [])).2.2.2.2.1
      ['4', '2'] (by decide) (by decide) (by decide)).1.trans (by decide)⟩

/-! ## C10: the markup stripper -/

/-- Whether a position is suppressed depends on the characters before it only. -/
theorem suppressed_append (l r : List Char) (i : Nat) (hi : i ≤ l.length) :
    Suppressed (l ++ r) i ↔ Suppressed l i := by
  unfold Suppressed
  constructor
  · rintro ⟨j, hj, hlt, hall⟩
    refine ⟨j, hj, ?_, ?_⟩
    · rwa [List.getElem?_append_left (by omega)] at hlt
    · intro k hk hjk
      have := hall k hk hjk
      rwa [List.getElem?_append_left (by omega)] at this
  · rintro ⟨j, hj, hlt, hall⟩
    refine ⟨j, hj, ?_, ?_⟩
    · rwa [List.getElem?_append_left (by omega)]
    · intro k hk hjk
      rw [List.getElem?_append_left (by omega)]
      exact hall k hk hjk

/-- The suppression state after one more character. -/
theorem suppressed_snoc (l : List Char) (c : Char) :
    Suppressed (l ++ [c]) (l.length + 1) ↔
      (c = '<' ∨ (c ≠ '>' ∧ Suppressed l l.length)) := by
  have hlast : (l ++ [c])[l.length]? = some c := by simp
  constructor
  · rintro ⟨j, hj, hlt, hall⟩
    by_cases hjl : j = l.length
    · subst hjl
      rw [hlast] at hlt
      exact Or.inl (Option.some.inj hlt)
    · right
      have hj2 : j < l.length := by omega
      constructor
      · intro hc
        have := hall l.length (by omega) hj2
        rw [hlast, hc] at this
        exact this rfl
      · refine ⟨j, hj2, ?_, ?_⟩
        · rwa [List.getElem?_append_left hj2] at hlt
        · intro k hk hjk
          have := hall k (by omega) hjk
          rwa [List.getElem?_append_left hk] at this
  · rintro (hc | ⟨hc, j, hj, hlt, hall⟩)
    · refine ⟨l.length, by omega, by rw [hlast, hc], ?_⟩
      intro k hk hjk
      omega
    · refine ⟨j, by omega, by rwa [List.getElem?_append_left hj], ?_⟩
      intro k hk hjk
      by_cases hkl : k = l.length
      · subst hkl
        rw [hlast]
        intro h
        exact hc (Option.some.inj h)
      · rw [List.getElem?_append_left (by omega)]
        exact hall k (by omega) hjk

/-- The kept characters after one more character. -/
theorem keptSpec_snoc (l : List Char) (c : Char) :
    keptSpec (l ++ [c]) =
      keptSpec l ++ (if c ≠ '<' ∧ c ≠ '>' ∧ ¬ Suppressed l l.length then [c] else []) := by
  have hlast : (l ++ [c])[l.length]? = some c := by simp
  unfold keptSpec
  rw [List.length_append, List.length_singleton, List.range_succ, List.filterMap_append]
  congr 1
  · apply List.filterMap_congr
    intro i hi
    have hi2 : i < l.length := List.mem_range.mp hi
    have hv : Visible (l ++ [c]) i ↔ Visible l i := by
      unfold Visible
      rw [List.getElem?_append_left hi2, suppressed_append l [c] i (le_of_lt hi2)]
    simp only [hv, List.getElem?_append_left hi2]
  · have hv : Visible (l ++ [c]) l.length ↔ (c ≠ '<' ∧ c ≠ '>' ∧ ¬ Suppressed l l.length) := by
      unfold Visible
      rw [hlast, suppressed_append l [c] l.length (le_refl _)]
      simp
    by_cases h : c ≠ '<' ∧ c ≠ '>' ∧ ¬ Suppressed l l.length
    · simp [hv, h, hlast]
    · simp only [List.filterMap_cons, List.filterMap_nil, hv, h, if_false]

/-- One turn of the loop of `stripHTML`: what it appends and what it does to `inTag`. -/
theorem stripStep_spec (st : String × Bool) (c : Char) :
    (stripStep st c).1.toList
        = st.1.toList ++ (if c ≠ '<' ∧ c ≠ '>' ∧ st.2 = false then [c] else [])
    ∧ ((stripStep st c).2 = true ↔ (c = '<' ∨ (c ≠ '>' ∧ st.2 = true))) := by
  obtain ⟨res, inTag⟩ := st
  unfold stripStep
  by_cases h1 : c = '<'
  · simp [h1]
  · by_cases h2 : c = '>'
    · simp [h1, h2]
    · cases inTag
      · simp [h1, h2, String.singleton]
      · simp [h1, h2]

/-- The loop of `stripHTML` computes the kept characters of the specification, and its
flag `inTag` says whether the next position is suppressed. -/
theorem strip_loop_refines (l : List Char) :
    (l.foldl stripStep ("", false)).1.toList = keptSpec l
    ∧ ((l.foldl stripStep ("", false)).2 = true ↔ Suppressed l l.length) := by
  induction l using List.reverseRecOn with
  | nil =>
    refine ⟨rfl, ?_⟩
    simp [Suppressed]
  | append_singleton l c ih =>
    obtain ⟨ih1, ih2⟩ := ih
    have hstep := stripStep_spec (l.foldl stripStep ("", false)) c
    rw [List.foldl_append, List.foldl_cons, List.foldl_nil, keptSpec_snoc,
      List.length_append, List.length_singleton, suppressed_snoc]
    refine ⟨?_, ?_⟩
    · rw [hstep.1, ih1]
      congr 1
      have hiff : (l.foldl stripStep ("", false)).2 = false ↔ ¬ Suppressed l l.length := by
        rw [← ih2]
        simp
      simp only [hiff]
    · rw [hstep.2, ih2]

/-- The kept characters of the specification are neither `<` nor `>`. -/
theorem keptSpec_no_brackets (l : List Char) : ∀ c ∈ keptSpec l, c ≠ '<' ∧ c ≠ '>' := by
  intro c hc
  unfold keptSpec at hc
  obtain ⟨i, _, hi⟩ := List.mem_filterMap.mp hc
  by_cases hv : Visible l i
  · rw [if_pos hv] at hi
    obtain ⟨h1, h2, _⟩ := hv
    rw [hi] at h1 h2
    exact ⟨fun h => h1 (by rw [h]), fun h => h2 (by rw [h])⟩
  · rw [if_neg hv] at hi
    cases hi

/-- On a text without `<` and `>` the loop of `stripHTML` copies the text. -/
theorem strip_loop_plain (l : List Char) (acc : String)
    (h : ∀ c ∈ l, c ≠ '<' ∧ c ≠ '>') :
    l.foldl stripStep (acc, false) = (acc ++ String.mk l, false) := by
  induction l generalizing acc with
  | nil =>
    simp only [List.foldl_nil]
    congr 1
    apply String.ext
    simp
  | cons c cs ih =>
    have hc := h c (List.mem_cons_self _ _)
    have hcs : ∀ d ∈ cs, d ≠ '<' ∧ d ≠ '>' := fun d hd => h d (List.mem_cons_of_mem _ hd)
    rw [List.foldl_cons]
    have hstep : stripStep (acc, false) c = (acc ++ String.singleton c, false) := by
      simp [stripStep, hc.1, hc.2]
    rw [hstep, ih _ hcs]
    congr 1
    apply String.ext
    simp [String.singleton]

/-- The first character left by `dropWhile` fails the test. -/
theorem dropWhile_head_not (p : Char → Bool) (l : List Char) (a : Char) (rest : List Char)
    (h : l.dropWhile p = a :: rest) : p a = false := by
  induction l with
  | nil => simp at h
  | cons x xs ih =>
    by_cases hx : p x = true
    · rw [List.dropWhile_cons_of_pos hx] at h
      exact ih h
    · rw [List.dropWhile_cons_of_neg hx] at h
      have hxa : x = a := (List.cons.inj h).1
      rw [← hxa]
      simpa using hx

/-- The characters of `TrimSpace s`: the leading and the trailing white space of `s` are
dropped. -/
theorem TrimSpace_toList (s : String) :
    (TrimSpace s).toList = List.rdropWhile IsSpace (s.toList.dropWhile IsSpace) := rfl

/-- Trimming twice is trimming once. -/
theorem TrimSpace_idem (s : String) : TrimSpace (TrimSpace s) = TrimSpace s := by
  apply String.ext
  show (TrimSpace (TrimSpace s)).toList = (TrimSpace s).toList
  rw [TrimSpace_toList (TrimSpace s), TrimSpace_toList s]
  have hd : List.dropWhile IsSpace (List.rdropWhile IsSpace (s.toList.dropWhile IsSpace))
      = List.rdropWhile IsSpace (s.toList.dropWhile IsSpace) := by
    obtain ⟨r, hr⟩ := List.rdropWhile_prefix IsSpace (s.toList.dropWhile IsSpace)
    cases ht : List.rdropWhile IsSpace (s.toList.dropWhile IsSpace) with
    | nil => rfl
    | cons a t =>
      rw [ht] at hr
      have ha : IsSpace a = false := dropWhile_head_not IsSpace s.toList a (t ++ r) hr.symm
      rw [List.dropWhile_cons_of_neg (by simp [ha])]
  rw [hd, List.rdropWhile_idempotent]

/-- The characters of `TrimSpace s` are characters of `s`. -/
theorem TrimSpace_subset (s : String) : ∀ c ∈ (TrimSpace s).toList, c ∈ s.toList := by
  intro c hc
  rw [TrimSpace_toList] at hc
  exact List.dropWhile_subset _ ((List.rdropWhile_prefix IsSpace _).subset hc)

/-- C10 (markup stripper): `stripHTML(s)` is the white-space-trimmed string of exactly
those characters of `s`, in order, that are neither `<` nor `>` and are not
preceded by a `<` with no `>` in between; it contains neither `<` nor `>`; it
is `TrimSpace(s)` when `s` contains neither `<` nor `>`; and stripping twice is
stripping once. -/
theorem stripHTML_spec (s : String) :
    stripHTML s = TrimSpace (String.mk (keptSpec s.toList))
    ∧ ('<' ∉ (stripHTML s).toList ∧ '>' ∉ (stripHTML s).toList)
    ∧ ('<' ∉ s.toList → '>' ∉ s.toList → stripHTML s = TrimSpace s)
    ∧ stripHTML (stripHTML s) = stripHTML s
    ∧ (stripHTML "<b>hi</b> there " = "hi there" ∧ stripHTML "a < b > c" = "a  c"
        ∧ stripHTML "  x<y" = "x" ∧ stripHTML "no tags" = "no tags") := by
  have hspec : ∀ t : String, stripHTML t = TrimSpace (String.mk (keptSpec t.toList)) := by
    intro t
    unfold stripHTML
    congr 1
    apply String.ext
    exact (strip_loop_refines t.toList).1
  have hno : ∀ t : String, ∀ c ∈ (stripHTML t).toList, c ≠ '<' ∧ c ≠ '>' := by
    intro t c hc
    rw [hspec t] at hc
    exact keptSpec_no_brackets t.toList c (TrimSpace_subset _ c hc)
  have hplain : ∀ t : String, (∀ c ∈ t.toList, c ≠ '<' ∧ c ≠ '>') → stripHTML t = TrimSpace t := by
    intro t ht
    unfold stripHTML
    rw [strip_loop_plain t.toList "" ht]
    congr 1
  refine ⟨hspec s, ⟨fun h => (hno s _ h).1 rfl, fun h => (hno s _ h).2 rfl⟩, ?_, ?_, by decide⟩
  · intro h1 h2
    apply hplain
    intro c hc
    exact ⟨fun h => h1 (h ▸ hc), fun h => h2 (h ▸ hc)⟩
  · rw [hplain (stripHTML s) (hno s)]
    unfold stripHTML
    exact TrimSpace_idem _

/-- C10 on a text without brackets: `stripHTML` only trims it. -/
theorem stripHTML_spec_witness :
    stripHTML " plain text " = TrimSpace " plain text " ∧ TrimSpace " plain text " = "plain text" :=
  ⟨(stripHTML_spec " plain text ").2.2.1 (by decide) (by decide), by decide⟩

end AwsBreeze
